import Mathlib

/-!
# Byte-array statistics: a shallow embedding of `assessments/m1/stats.c`

The C translation unit computes minimum, maximum, mean and median of an array of
`unsigned char`, sorts the array in descending order with an in-place quicksort, and
prints the results.

Conventions of the embedding

* an array of `unsigned char` is a `List Nat`; the predicate `Bytes` says that every
  cell holds a value below 256;
* `unsigned int` values are natural numbers, and arithmetic that can exceed 32 bits is
  reduced modulo `UINT_RANGE` (the accumulator of `find_mean`);
* `int` values are integers; an `int` operation whose mathematical result is not
  representable in 32 bits is undefined behaviour in C and yields `Fault.intOverflow`;
* the conversion `(int)len` of an `unsigned int` is the two's complement one (`toInt`);
* every array access is checked: an index outside the list yields `Fault.outOfBounds`;
* loops are recursive functions with an explicit iteration budget (their first
  argument); the wrappers without the suffix `Aux` supply the budget, and running out
  of it yields `Fault.outOfFuel`;
* the functions with the suffix `Checked` are the sort run under a monitor that also
  faults when an access leaves the range `[left, right]` of the current call.
-/

namespace Stats

/-! ## Machine model -/

/-- Ways in which a run can leave the defined behaviour of the C program. -/
inductive Fault where
  | outOfBounds
  | intOverflow
  | outOfFuel
  deriving DecidableEq, Repr

deriving instance DecidableEq for Except

/-- Smallest value of a 32-bit `int`. -/
def INT_MIN : Int := -2147483648

/-- Largest value of a 32-bit `int`. -/
def INT_MAX : Int := 2147483647

/-- Number of values of a 32-bit `unsigned int`. -/
def UINT_RANGE : Nat := 4294967296

/-- Number of values of an `unsigned char`. -/
def UCHAR_RANGE : Nat := 256

/-- Every cell of the array holds an `unsigned char`. -/
def Bytes (arr : List Nat) : Prop := ∀ x ∈ arr, x < UCHAR_RANGE

instance (arr : List Nat) : Decidable (Bytes arr) := by
  unfold Bytes; infer_instance

/-- Result of an `int` computation whose mathematical value is `v`. -/
def intResult (v : Int) : Except Fault Int :=
  if INT_MIN ≤ v ∧ v ≤ INT_MAX then .ok v else .error .intOverflow

/-- The conversion `(int)u` of an `unsigned int`. -/
def toInt (u : Nat) : Int :=
  if (u : Int) ≤ INT_MAX then (u : Int) else (u : Int) - (UINT_RANGE : Int)

/-- The read `arr[i]` with an `int` index. -/
def readAt (arr : List Nat) (i : Int) : Except Fault Nat :=
  if i < 0 then .error .outOfBounds
  else match arr[i.toNat]? with
    | some v => .ok v
    | none => .error .outOfBounds

/-- The read `arr[i]` with an `unsigned int` index. -/
def readNat (arr : List Nat) (i : Nat) : Except Fault Nat :=
  match arr[i]? with
  | some v => .ok v
  | none => .error .outOfBounds

/-! ## `swap` and the quicksort -/

/-- The call `swap(&arr[a], &arr[b])`: `t = *a; *a = *b; *b = t`. -/
def swap (arr : List Nat) (a b : Int) : Except Fault (List Nat) := do
  let t ← readAt arr a
  let vb ← readAt arr b
  pure ((arr.set a.toNat vb).set b.toNat t)

/-- The scan `while (arr[i] > pivot) i++;`. -/
def scanUpAux : Nat → List Nat → Nat → Int → Except Fault Int
  | 0, _, _, _ => .error .outOfFuel
  | fuel + 1, arr, pivot, i => do
    let v ← readAt arr i
    if v > pivot then
      let i' ← intResult (i + 1)
      scanUpAux fuel arr pivot i'
    else pure i

/-- The scan `while (arr[i] > pivot) i++;`, which leaves the array after at most
`arr.length + 1` reads. -/
def scanUp (arr : List Nat) (pivot : Nat) (i : Int) : Except Fault Int :=
  scanUpAux (arr.length + 1) arr pivot i

/-- The scan `while (arr[j] < pivot) j--;`. -/
def scanDownAux : Nat → List Nat → Nat → Int → Except Fault Int
  | 0, _, _, _ => .error .outOfFuel
  | fuel + 1, arr, pivot, j => do
    let v ← readAt arr j
    if v < pivot then
      let j' ← intResult (j - 1)
      scanDownAux fuel arr pivot j'
    else pure j

/-- The scan `while (arr[j] < pivot) j--;`, which leaves the array after at most
`arr.length + 1` reads. -/
def scanDown (arr : List Nat) (pivot : Nat) (j : Int) : Except Fault Int :=
  scanDownAux (arr.length + 1) arr pivot j

/-- The partition loop `while (i <= j)` of `quicksort_desc`; the result is the array
and the cursors `i`, `j` when the loop exits. -/
def partitionLoopAux : Nat → List Nat → Nat → Int → Int → Except Fault (List Nat × Int × Int)
  | 0, arr, _, i, j => if i ≤ j then .error .outOfFuel else .ok (arr, i, j)
  | fuel + 1, arr, pivot, i, j =>
    if i ≤ j then do
      let i ← scanUp arr pivot i
      let j ← scanDown arr pivot j
      if i ≤ j then
        let arr ← swap arr i j
        let i ← intResult (i + 1)
        let j ← intResult (j - 1)
        partitionLoopAux fuel arr pivot i j
      else partitionLoopAux fuel arr pivot i j
    else .ok (arr, i, j)

/-- The partition loop with one unit of budget for each cell between the cursors. -/
def partitionLoop (arr : List Nat) (pivot : Nat) (i j : Int) :
    Except Fault (List Nat × Int × Int) :=
  partitionLoopAux (j - i + 1).toNat arr pivot i j

/-- The function `quicksort_desc(arr, left, right)` with a bound on the recursion depth. -/
def quicksort_descAux : Nat → List Nat → Int → Int → Except Fault (List Nat)
  | 0, arr, left, right => if left ≥ right then .ok arr else .error .outOfFuel
  | fuel + 1, arr, left, right =>
    if left ≥ right then .ok arr
    else do
      let s ← intResult (left + right)
      let pivot ← readAt arr (s.tdiv 2)
      let (arr, i, j) ← partitionLoop arr pivot left right
      let arr ← if left < j then quicksort_descAux fuel arr left j else pure arr
      if i < right then quicksort_descAux fuel arr i right else pure arr

/-- The function `quicksort_desc(arr, left, right)`; the recursion depth is bounded by
`right - left`. -/
def quicksort_desc (arr : List Nat) (left right : Int) : Except Fault (List Nat) :=
  quicksort_descAux (right - left).toNat arr left right

/-- The function `sort_array(arr, len)`. -/
def sort_array (arr : List Nat) (len : Nat) : Except Fault (List Nat) :=
  if len < 2 then .ok arr
  else do
    let right ← intResult (toInt len - 1)
    quicksort_desc arr 0 right

/-! ## Statistics -/

/-- The loop `for (i = ...; i < len; i++) if (arr[i] < min) min = arr[i];`; the first
argument is the number of iterations left, `len - i`. -/
def find_minimum_loop (arr : List Nat) : Nat → Nat → Nat → Except Fault Nat
  | 0, _, min => .ok min
  | n + 1, i, min => do
    let v ← readNat arr i
    find_minimum_loop arr n (i + 1) (if v < min then v else min)

/-- The function `find_minimum(arr, len)`. -/
def find_minimum (arr : List Nat) (len : Nat) : Except Fault Nat :=
  if len = 0 then .ok 0
  else do
    let min ← readNat arr 0
    find_minimum_loop arr (len - 1) 1 min

/-- The loop `for (i = ...; i < len; i++) if (arr[i] > max) max = arr[i];`; the first
argument is the number of iterations left, `len - i`. -/
def find_maximum_loop (arr : List Nat) : Nat → Nat → Nat → Except Fault Nat
  | 0, _, max => .ok max
  | n + 1, i, max => do
    let v ← readNat arr i
    find_maximum_loop arr n (i + 1) (if v > max then v else max)

/-- The function `find_maximum(arr, len)`. -/
def find_maximum (arr : List Nat) (len : Nat) : Except Fault Nat :=
  if len = 0 then .ok 0
  else do
    let max ← readNat arr 0
    find_maximum_loop arr (len - 1) 1 max

/-- The loop `for (i = ...; i < len; i++) sum += arr[i];` on the `unsigned int`
accumulator; the first argument is the number of iterations left, `len - i`. -/
def find_mean_loop (arr : List Nat) : Nat → Nat → Nat → Except Fault Nat
  | 0, _, sum => .ok sum
  | n + 1, i, sum => do
    let v ← readNat arr i
    find_mean_loop arr n (i + 1) ((sum + v) % UINT_RANGE)

/-- The function `find_mean(arr, len)`, with the final `(unsigned char)` cast. -/
def find_mean (arr : List Nat) (len : Nat) : Except Fault Nat :=
  if len = 0 then .ok 0
  else do
    let sum ← find_mean_loop arr len 0 0
    pure ((sum / len) % UCHAR_RANGE)

/-- The function `find_median(arr, len)`: the array after the call and the value
returned. -/
def find_median (arr : List Nat) (len : Nat) : Except Fault (List Nat × Nat) :=
  if len = 0 then .ok (arr, 0)
  else do
    let arr ← sort_array arr len
    if len &&& 1 ≠ 0 then
      let v ← readNat arr (len / 2)
      pure (arr, v)
    else
      let mid := len / 2
      let a ← readNat arr (mid - 1)
      let b ← readNat arr mid
      pure (arr, ((a + b) / 2) % UCHAR_RANGE)

/-! ## Printing -/

/-- The loop `for (i = ...; i < len; i++) printf("%u ", arr[i]);` appending to the
text written so far; the first argument is the number of iterations left. -/
def print_array_loop (arr : List Nat) : Nat → Nat → String → Except Fault String
  | 0, _, out => .ok out
  | n + 1, i, out => do
    let v ← readNat arr i
    print_array_loop arr n (i + 1) (out ++ Nat.repr v ++ " ")

/-- The function `print_array(arr, len)`: the text written to standard output. -/
def print_array (arr : List Nat) (len : Nat) : Except Fault String := do
  let out ← print_array_loop arr len 0 ""
  pure (out ++ "\n")

/-- The loop `for (i = ...; i < len; ++i) tmp[i] = arr[i];`; the first argument is the
number of iterations left. -/
def copy_loop (arr : List Nat) : Nat → Nat → List Nat → Except Fault (List Nat)
  | 0, _, tmp => .ok tmp
  | n + 1, i, tmp => do
    let v ← readNat arr i
    if i < tmp.length then copy_loop arr n (i + 1) (tmp.set i v)
    else .error .outOfBounds

/-- The four `printf` calls that end `print_statistics`. -/
def statistics_text (min max mean median : Nat) : String :=
  "Minimum: " ++ Nat.repr min ++ "\n" ++
  "Maximum: " ++ Nat.repr max ++ "\n" ++
  "Mean:    " ++ Nat.repr mean ++ "\n" ++
  "Median:  " ++ Nat.repr median ++ "\n"

/-- The function `print_statistics(arr, len)`. The argument `tmp` is what
`malloc(len)` returns: `none` for `NULL`, otherwise a fresh buffer of `len` cells with
arbitrary contents. The result is the caller's array after the call and the text
written to standard output. -/
def print_statistics (arr : List Nat) (len : Nat) (tmp : Option (List Nat)) :
    Except Fault (List Nat × String) := do
  let min ← find_minimum arr len
  let max ← find_maximum arr len
  let mean ← find_mean arr len
  let median ←
    if len > 0 then
      match tmp with
      | some buf => do
        let buf ← copy_loop arr len 0 buf
        let (_, m) ← find_median buf len
        pure m
      | none => pure 0
    else pure 0
  pure (arr, statistics_text min max mean median)

/-- The array `test` of `main`. -/
def test : List Nat :=
  [ 34, 201, 190, 154,   8, 194,   2,   6,
   114,  88,  45,  76, 123,  87,  25,  23,
   200, 122, 150,  90,  92,  87, 177, 244,
   201,   6,  12,  60,   8,   2,   5,  67,
     7,  87, 250, 230,  99,   3, 100,  90]

/-- The function `main`: the array `test` when it returns, the text written to
standard output and the exit code. The argument `tmp` is what the `malloc` call of
`print_statistics` returns. -/
def main (tmp : Option (List Nat)) : Except Fault (List Nat × String × Int) := do
  let out₁ ← print_array test 40
  let (arr, out₂) ← print_statistics test 40 tmp
  let arr ← sort_array arr 40
  let out₃ ← print_array arr 40
  pure (arr, "Original array:\n" ++ out₁ ++ "\nStatistics:\n" ++ out₂ ++
    "\nSorted array (descending):\n" ++ out₃, 0)

/-! ## Specification vocabulary -/

/-- The value held by cell `k` (0 outside the array). -/
def cell (arr : List Nat) (k : Nat) : Nat := arr.getD k 0

/-- Bound on the length below which no `int` computation of the sort overflows. -/
def MAX_LEN : Nat := 1073741824

/-- The array is non-increasing from each cell to the next. -/
def NonIncreasing (arr : List Nat) : Prop :=
  ∀ k, k + 1 < arr.length → arr.getD (k + 1) 0 ≤ arr.getD k 0

/-- The array `b` has the length and the contents of `a`, up to the order of the cells
in the range `[l, r]`. -/
def Frame (l r : Int) (a b : List Nat) : Prop :=
  b.length = a.length ∧ b.Perm a ∧ ∀ k : Nat, ((k : Int) < l ∨ r < (k : Int)) → cell b k = cell a k

/-- The range `[l, r]` of the array is in descending order. -/
def SortedSeg (l r : Int) (a : List Nat) : Prop :=
  ∀ k₁ k₂ : Nat, l ≤ (k₁ : Int) → k₁ ≤ k₂ → (k₂ : Int) ≤ r → cell a k₂ ≤ cell a k₁

/-- The value `find_median` computes from the sorted array `out` of length `len`. -/
def centralValue (out : List Nat) (len : Nat) : Nat :=
  if len &&& 1 ≠ 0 then cell out (len / 2)
  else ((cell out (len / 2 - 1) + cell out (len / 2)) / 2) % UCHAR_RANGE

/-! ## The sort with every access checked against the bounds of the call -/

/-- The read `arr[i]` made while `quicksort_desc` works on the range `[lo, hi]`: an
index outside the range is reported as a fault. -/
def readChecked (lo hi : Int) (arr : List Nat) (i : Int) : Except Fault Nat :=
  if lo ≤ i ∧ i ≤ hi then readAt arr i else .error .outOfBounds

/-- The function `swap` with both accesses checked against the range `[lo, hi]`. -/
def swapChecked (lo hi : Int) (arr : List Nat) (a b : Int) : Except Fault (List Nat) := do
  let t ← readChecked lo hi arr a
  let vb ← readChecked lo hi arr b
  pure ((arr.set a.toNat vb).set b.toNat t)

/-- The scan `while (arr[i] > pivot) i++;` with every read checked against `[lo, hi]`. -/
def scanUpAuxChecked (lo hi : Int) : Nat → List Nat → Nat → Int → Except Fault Int
  | 0, _, _, _ => .error .outOfFuel
  | fuel + 1, arr, pivot, i => do
    let v ← readChecked lo hi arr i
    if v > pivot then
      let i' ← intResult (i + 1)
      scanUpAuxChecked lo hi fuel arr pivot i'
    else pure i

/-- The checked upward scan with the budget of `scanUp`. -/
def scanUpChecked (lo hi : Int) (arr : List Nat) (pivot : Nat) (i : Int) : Except Fault Int :=
  scanUpAuxChecked lo hi (arr.length + 1) arr pivot i

/-- The scan `while (arr[j] < pivot) j--;` with every read checked against `[lo, hi]`. -/
def scanDownAuxChecked (lo hi : Int) : Nat → List Nat → Nat → Int → Except Fault Int
  | 0, _, _, _ => .error .outOfFuel
  | fuel + 1, arr, pivot, j => do
    let v ← readChecked lo hi arr j
    if v < pivot then
      let j' ← intResult (j - 1)
      scanDownAuxChecked lo hi fuel arr pivot j'
    else pure j

/-- The checked downward scan with the budget of `scanDown`. -/
def scanDownChecked (lo hi : Int) (arr : List Nat) (pivot : Nat) (j : Int) :
    Except Fault Int :=
  scanDownAuxChecked lo hi (arr.length + 1) arr pivot j

/-- The partition loop with every access checked against `[lo, hi]`. -/
def partitionLoopAuxChecked (lo hi : Int) :
    Nat → List Nat → Nat → Int → Int → Except Fault (List Nat × Int × Int)
  | 0, arr, _, i, j => if i ≤ j then .error .outOfFuel else .ok (arr, i, j)
  | fuel + 1, arr, pivot, i, j =>
    if i ≤ j then do
      let i ← scanUpChecked lo hi arr pivot i
      let j ← scanDownChecked lo hi arr pivot j
      if i ≤ j then
        let arr ← swapChecked lo hi arr i j
        let i ← intResult (i + 1)
        let j ← intResult (j - 1)
        partitionLoopAuxChecked lo hi fuel arr pivot i j
      else partitionLoopAuxChecked lo hi fuel arr pivot i j
    else .ok (arr, i, j)

/-- The checked partition loop with the budget of `partitionLoop`. -/
def partitionLoopChecked (lo hi : Int) (arr : List Nat) (pivot : Nat) (i j : Int) :
    Except Fault (List Nat × Int × Int) :=
  partitionLoopAuxChecked lo hi (j - i + 1).toNat arr pivot i j

/-- The function `quicksort_desc` with a monitor: a call that has work to do must be on
a range inside the array, and each of its accesses (the pivot read, the scans, the
swap) must use an index of its own range `[left, right]`; otherwise the run ends in
`Fault.outOfBounds`. -/
def quicksort_descAuxChecked : Nat → List Nat → Int → Int → Except Fault (List Nat)
  | 0, arr, left, right => if left ≥ right then .ok arr else .error .outOfFuel
  | fuel + 1, arr, left, right =>
    if left ≥ right then .ok arr
    else if 0 ≤ left ∧ right < (arr.length : Int) then do
      let s ← intResult (left + right)
      let pivot ← readChecked left right arr (s.tdiv 2)
      let (arr, i, j) ← partitionLoopChecked left right arr pivot left right
      let arr ← if left < j then quicksort_descAuxChecked fuel arr left j else pure arr
      if i < right then quicksort_descAuxChecked fuel arr i right else pure arr
    else .error .outOfBounds

/-- The monitored `quicksort_desc` with the budget of `quicksort_desc`. -/
def quicksort_descChecked (arr : List Nat) (left right : Int) : Except Fault (List Nat) :=
  quicksort_descAuxChecked (right - left).toNat arr left right

/-- The function `sort_array` running the monitored `quicksort_desc`. -/
def sort_arrayChecked (arr : List Nat) (len : Nat) : Except Fault (List Nat) :=
  if len < 2 then .ok arr
  else do
    let right ← intResult (toInt len - 1)
    quicksort_descChecked arr 0 right

/-! ## The program of `main` -/

/-- The array `test` of `main` in descending order. -/
def test_sorted : List Nat :=
  [250, 244, 230, 201, 201, 200, 194, 190,
   177, 154, 150, 123, 122, 114, 100,  99,
    92,  90,  90,  88,  87,  87,  87,  76,
    67,  60,  45,  34,  25,  23,  12,   8,
     8,   7,   6,   6,   5,   3,   2,   2]

/-- The text `main` writes when the allocation in `print_statistics` succeeds. -/
def main_text : String :=
  "Original array:\n" ++
  "34 201 190 154 8 194 2 6 114 88 45 76 123 87 25 23 200 122 150 90 " ++
  "92 87 177 244 201 6 12 60 8 2 5 67 7 87 250 230 99 3 100 90 \n" ++
  "\nStatistics:\n" ++
  "Minimum: 2\nMaximum: 250\nMean:    93\nMedian:  87\n" ++
  "\nSorted array (descending):\n" ++
  "250 244 230 201 201 200 194 190 177 154 150 123 122 114 100 99 92 90 90 88 " ++
  "87 87 87 76 67 60 45 34 25 23 12 8 8 7 6 6 5 3 2 2 \n"

/-! # Theorems -/

/-! ## Basic facts about the machine model -/

@[simp] theorem ok_bind {α β : Type} (a : α) (f : α → Except Fault β) :
    (Except.ok a >>= f) = f a := rfl

@[simp] theorem error_bind {α β : Type} (e : Fault) (f : α → Except Fault β) :
    (Except.error e >>= f) = Except.error e := rfl

@[simp] theorem pure_eq_ok {α : Type} (a : α) : (pure a : Except Fault α) = Except.ok a := rfl

theorem readNat_of_lt {arr : List Nat} {k : Nat} (h : k < arr.length) :
    readNat arr k = .ok (cell arr k) := by
  simp [readNat, cell, List.getElem?_eq_getElem h]

theorem readNat_of_ge {arr : List Nat} {k : Nat} (h : arr.length ≤ k) :
    readNat arr k = .error .outOfBounds := by
  simp [readNat, List.getElem?_eq_none h]

theorem readAt_natCast (arr : List Nat) (k : Nat) : readAt arr (k : Int) = readNat arr k := by
  simp [readAt, readNat]

theorem intResult_of_bounds {v : Int} (h₁ : -2147483648 ≤ v) (h₂ : v ≤ 2147483647) :
    intResult v = .ok v := by
  simp [intResult, INT_MIN, INT_MAX, h₁, h₂]

theorem cell_mem {arr : List Nat} {k : Nat} (h : k < arr.length) : cell arr k ∈ arr := by
  simp only [cell, List.getD_eq_getElem _ _ h]
  exact List.getElem_mem h

theorem cell_eq_getElem {arr : List Nat} {k : Nat} (h : k < arr.length) : cell arr k = arr[k] := by
  simp only [cell, List.getD_eq_getElem _ _ h]

theorem cell_set (arr : List Nat) (i k v : Nat) :
    cell (arr.set i v) k = if i = k ∧ i < arr.length then v else cell arr k := by
  simp only [cell, List.getD_eq_getElem?_getD, List.getElem?_set]
  by_cases h : i = k
  · subst h
    by_cases h' : i < arr.length
    · simp [h']
    · simp [h', List.getElem?_eq_none (Nat.le_of_not_lt h')]
  · simp [h]

theorem exists_cell_of_mem {arr : List Nat} {x : Nat} (h : x ∈ arr) :
    ∃ k, k < arr.length ∧ cell arr k = x := by
  obtain ⟨k, hk, rfl⟩ := List.getElem_of_mem h
  exact ⟨k, hk, cell_eq_getElem hk⟩

/-! ## The two scans -/

theorem scanUpAux_spec (arr : List Nat) (pivot : Nat) (hlen : arr.length ≤ MAX_LEN) :
    ∀ (fuel i s : Nat), i ≤ s → s < arr.length → cell arr s ≤ pivot → s - i < fuel →
      ∃ i' : Nat, scanUpAux fuel arr pivot (i : Int) = .ok (i' : Int) ∧ i ≤ i' ∧ i' ≤ s ∧
        cell arr i' ≤ pivot ∧ ∀ k, i ≤ k → k < i' → pivot < cell arr k := by
  intro fuel
  induction fuel with
  | zero => intro i s _ _ _ h; omega
  | succ fuel ih =>
    intro i s his hs hstop hfuel
    have hi : i < arr.length := by omega
    by_cases hv : pivot < cell arr i
    · have hne : i ≠ s := by rintro rfl; omega
      have hlt : i + 1 ≤ s := by omega
      obtain ⟨i', h1, h2, h3, h4, h5⟩ := ih (i + 1) s hlt hs hstop (by omega)
      refine ⟨i', ?_, by omega, h3, h4, ?_⟩
      · have hov : intResult ((i : Int) + 1) = .ok ((i : Int) + 1) :=
          intResult_of_bounds (by omega) (by simp only [MAX_LEN] at hlen; omega)
        simp only [scanUpAux, readAt_natCast, readNat_of_lt hi, ok_bind, gt_iff_lt, hv,
          if_true, hov]
        exact_mod_cast h1
      · intro k hk1 hk2
        by_cases hk : k = i
        · subst hk; exact hv
        · exact h5 k (by omega) hk2
    · refine ⟨i, ?_, le_refl _, his, by omega, ?_⟩
      · simp [scanUpAux, readAt_natCast, readNat_of_lt hi, hv]
      · intro k hk1 hk2; omega

theorem scanDownAux_spec (arr : List Nat) (pivot : Nat) (hlen : arr.length ≤ MAX_LEN) :
    ∀ (fuel j t : Nat), t ≤ j → j < arr.length → pivot ≤ cell arr t → j - t < fuel →
      ∃ j' : Nat, scanDownAux fuel arr pivot (j : Int) = .ok (j' : Int) ∧ t ≤ j' ∧ j' ≤ j ∧
        pivot ≤ cell arr j' ∧ ∀ k, j' < k → k ≤ j → cell arr k < pivot := by
  intro fuel
  induction fuel with
  | zero => intro j t _ _ _ h; omega
  | succ fuel ih =>
    intro j t htj hj hstop hfuel
    by_cases hv : cell arr j < pivot
    · have hne : j ≠ t := by rintro rfl; omega
      obtain ⟨j', h1, h2, h3, h4, h5⟩ := ih (j - 1) t (by omega) (by omega) hstop (by omega)
      refine ⟨j', ?_, h2, by omega, h4, ?_⟩
      · have hov : intResult ((j : Int) - 1) = .ok ((j : Int) - 1) :=
          intResult_of_bounds (by omega) (by simp only [MAX_LEN] at hlen; omega)
        have hc : ((j : Int) - 1) = ((j - 1 : Nat) : Int) := by omega
        simp only [scanDownAux, readAt_natCast, readNat_of_lt hj, ok_bind, hv,
          if_true, hov]
        rw [hc]; exact h1
      · intro k hk1 hk2
        by_cases hk : k = j
        · subst hk; exact hv
        · exact h5 k hk1 (by omega)
    · refine ⟨j, ?_, htj, le_refl _, by omega, ?_⟩
      · simp [scanDownAux, readAt_natCast, readNat_of_lt hj, hv]
      · intro k hk1 hk2; omega

/-! ## Frames: what a run on the range `[l, r]` may change -/

theorem Frame.refl (l r : Int) (a : List Nat) : Frame l r a a :=
  ⟨rfl, List.Perm.refl a, fun _ _ => rfl⟩

theorem Frame.trans {l r : Int} {a b c : List Nat} (h₁ : Frame l r a b) (h₂ : Frame l r b c) :
    Frame l r a c :=
  ⟨h₂.1.trans h₁.1, h₂.2.1.trans h₁.2.1, fun k hk => (h₂.2.2 k hk).trans (h₁.2.2 k hk)⟩

theorem Frame.mono {l r l' r' : Int} {a b : List Nat} (h : Frame l' r' a b) (hl : l ≤ l')
    (hr : r' ≤ r) : Frame l r a b :=
  ⟨h.1, h.2.1, fun k hk => h.2.2 k (by omega)⟩

theorem list_ext_cell {a b : List Nat} (hlen : a.length = b.length)
    (h : ∀ k, k < a.length → cell a k = cell b k) : a = b := by
  apply List.ext_getElem hlen
  intro k h₁ h₂
  have := h k h₁
  rwa [cell_eq_getElem h₁, cell_eq_getElem h₂] at this

theorem cell_take {a : List Nat} {n k : Nat} (h : k < n) : cell (a.take n) k = cell a k := by
  simp [cell, List.getElem?_take, h]

theorem cell_drop (a : List Nat) (n k : Nat) : cell (a.drop n) k = cell a (n + k) := by
  simp [cell, List.getElem?_drop]

/-- Inside the range, every cell of the new array holds a value that a cell of the
range held before. -/
theorem Frame.cell_inside {l r : Int} {a b : List Nat} (h : Frame l r a b) {k : Nat}
    (hl : l ≤ (k : Int)) (hr : (k : Int) ≤ r) (hk : k < a.length) :
    ∃ k' : Nat, l ≤ (k' : Int) ∧ (k' : Int) ≤ r ∧ k' < a.length ∧ cell b k = cell a k' := by
  obtain ⟨hlen, hperm, hout⟩ := h
  -- split both arrays at the borders of the range
  have hpre : b.take l.toNat = a.take l.toNat := by
    apply list_ext_cell (by simp [hlen])
    intro j hj
    have hj' : j < l.toNat := by simp at hj; omega
    rw [cell_take hj', cell_take hj']
    exact hout j (by omega)
  have hpost : b.drop (r.toNat + 1) = a.drop (r.toNat + 1) := by
    apply list_ext_cell (by simp [hlen])
    intro j _
    rw [cell_drop, cell_drop]
    exact hout _ (by omega)
  have hsplit : ∀ c : List Nat, c = c.take l.toNat ++
      ((c.drop l.toNat).take (r.toNat + 1 - l.toNat) ++ c.drop (r.toNat + 1)) := by
    intro c
    have h₁ : c.drop (r.toNat + 1) = (c.drop l.toNat).drop (r.toNat + 1 - l.toNat) := by
      rw [List.drop_drop]; congr 1; omega
    rw [h₁, List.take_append_drop, List.take_append_drop]
  have hmid : ((b.drop l.toNat).take (r.toNat + 1 - l.toNat)).Perm
      ((a.drop l.toNat).take (r.toNat + 1 - l.toNat)) := by
    have hp := hperm
    rw [hsplit b, hsplit a, hpre, hpost] at hp
    exact (List.perm_append_right_iff _).1 ((List.perm_append_left_iff _).1 hp)
  have hkb : k < b.length := by omega
  have hmem : cell b k ∈ (b.drop l.toNat).take (r.toNat + 1 - l.toNat) := by
    have hidx : k - l.toNat < ((b.drop l.toNat).take (r.toNat + 1 - l.toNat)).length := by
      simp; omega
    have := cell_mem hidx
    rwa [cell_take (by omega), cell_drop, show l.toNat + (k - l.toNat) = k by omega] at this
  obtain ⟨n, hn, hcell⟩ := exists_cell_of_mem (hmid.mem_iff.1 hmem)
  have hn' : n < r.toNat + 1 - l.toNat ∧ n < a.length - l.toNat := by simpa using hn
  rw [cell_take hn'.1, cell_drop] at hcell
  exact ⟨l.toNat + n, by omega, by omega, by omega, hcell.symm⟩

theorem perm_set_set (a : List Nat) {i j : Nat} (hi : i < a.length) (hj : j < a.length) :
    ((a.set i (cell a j)).set j (cell a i)).Perm a := by
  rw [List.perm_iff_count]
  intro x
  have hj' : j < (a.set i (cell a j)).length := by simpa using hj
  have hread : (a.set i (cell a j))[j] = cell a j := by
    rw [← cell_eq_getElem hj', cell_set]
    by_cases h : i = j
    · simp [h, hj]
    · simp [h]
  rw [List.count_set _ _ _ _ hj', List.count_set _ _ _ _ hi, hread, ← cell_eq_getElem hi]
  have hpos : (if cell a i == x then 1 else 0) ≤ a.count x := by
    by_cases h : cell a i = x
    · subst h
      simpa using List.count_pos_iff.2 (cell_mem hi)
    · simp [h]
  revert hpos
  generalize (if cell a i == x then 1 else 0) = u
  generalize (if cell a j == x then 1 else 0) = v
  intro hpos
  omega

/-- Exchanging two cells of the range keeps the frame. -/
theorem Frame.swap_cells {l r : Int} (a : List Nat) {i j : Nat} (hi : i < a.length)
    (hj : j < a.length) (hli : l ≤ (i : Int)) (hir : (i : Int) ≤ r) (hlj : l ≤ (j : Int))
    (hjr : (j : Int) ≤ r) : Frame l r a ((a.set i (cell a j)).set j (cell a i)) := by
  refine ⟨by simp, perm_set_set a hi hj, ?_⟩
  intro k hk
  have h₁ : ¬ (j = k ∧ j < (a.set i (cell a j)).length) := by rintro ⟨rfl, _⟩; omega
  have h₂ : ¬ (i = k ∧ i < a.length) := by rintro ⟨rfl, _⟩; omega
  rw [cell_set, if_neg h₁, cell_set, if_neg h₂]

theorem swap_of_lt {a : List Nat} {i j : Nat} (hi : i < a.length) (hj : j < a.length) :
    swap a (i : Int) (j : Int) = .ok ((a.set i (cell a j)).set j (cell a i)) := by
  simp [swap, readAt_natCast, readNat_of_lt hi, readNat_of_lt hj]

/-! ## The partition loop -/

theorem partitionLoopAux_exit (fuel : Nat) (arr : List Nat) (pivot : Nat) {i j : Int}
    (h : ¬ i ≤ j) : partitionLoopAux fuel arr pivot i j = .ok (arr, i, j) := by
  cases fuel <;> simp [partitionLoopAux, h]

/-- Invariant of the partition loop on the range `[left, right]` of an array within
`MAX_LEN`: from cursors `i`, `j` with the cells before `i` at least the pivot, the cells
after `j` at most the pivot, and, while `i ≤ j`, a cell `s` at or after `i` that stops
the upward scan and a cell `t` at or before `j` that stops the downward scan, the loop
exits without fault with the cursors crossed and the same two facts. -/
theorem partitionLoopAux_spec (a₀ : List Nat) (pivot : Nat) (left right : Int)
    (hlen : a₀.length ≤ MAX_LEN) (hleft : 0 ≤ left) (hright : right < (a₀.length : Int)) :
    ∀ (fuel : Nat) (arr : List Nat) (i j : Int) (s t : Nat),
      Frame left right a₀ arr →
      left ≤ i → j ≤ right → i ≤ right + 1 → left - 1 ≤ j →
      (∀ k : Nat, left ≤ (k : Int) → (k : Int) < i → pivot ≤ cell arr k) →
      (∀ k : Nat, j < (k : Int) → (k : Int) ≤ right → cell arr k ≤ pivot) →
      (i ≤ j → i ≤ (s : Int) ∧ (s : Int) ≤ right ∧ cell arr s ≤ pivot ∧
        left ≤ (t : Int) ∧ (t : Int) ≤ j ∧ pivot ≤ cell arr t) →
      j - i + 1 ≤ (fuel : Int) →
      ∃ arr' i' j', partitionLoopAux fuel arr pivot i j = .ok (arr', i', j') ∧
        Frame left right a₀ arr' ∧ j' < i' ∧ i ≤ i' ∧ j' ≤ j ∧ i' ≤ right + 1 ∧
        left - 1 ≤ j' ∧
        (∀ k : Nat, left ≤ (k : Int) → (k : Int) < i' → pivot ≤ cell arr' k) ∧
        (∀ k : Nat, j' < (k : Int) → (k : Int) ≤ right → cell arr' k ≤ pivot) ∧
        (i ≤ j → (s : Int) ≤ t → i < i' ∧ j' < j) := by
  intro fuel
  induction fuel with
  | zero =>
    intro arr i j s t hF hli hjr hir hlj hge hle _ hfuel
    have hij : ¬ i ≤ j := by omega
    exact ⟨arr, i, j, partitionLoopAux_exit 0 arr pivot hij, hF, by omega, le_refl _, le_refl _,
      hir, hlj, hge, hle, fun h => absurd h hij⟩
  | succ fuel ih =>
    intro arr i j s t hF hli hjr hir hlj hge hle hstop hfuel
    by_cases hij : i ≤ j
    · obtain ⟨hs₁, hs₂, hs₃, ht₁, ht₂, ht₃⟩ := hstop hij
      have hlenarr : arr.length = a₀.length := hF.1
      have hlen' : arr.length ≤ MAX_LEN := by omega
      lift i to ℕ using (by omega)
      lift j to ℕ using (by omega)
      obtain ⟨i₁, hu₁, hu₂, hu₃, hu₄, hu₅⟩ := scanUpAux_spec arr pivot hlen'
        (arr.length + 1) i s (by omega) (by omega) hs₃ (by omega)
      obtain ⟨j₁, hd₁, hd₂, hd₃, hd₄, hd₅⟩ := scanDownAux_spec arr pivot hlen'
        (arr.length + 1) j t (by omega) (by omega) ht₃ (by omega)
      by_cases h₁₂ : i₁ ≤ j₁
      · have h₁₂' : (i₁ : Int) ≤ (j₁ : Int) := by exact_mod_cast h₁₂
        have hi₁ : i₁ < arr.length := by omega
        have hj₁ : j₁ < arr.length := by omega
        have hov₁ : intResult ((i₁ : Int) + 1) = .ok ((i₁ : Int) + 1) :=
          intResult_of_bounds (by omega) (by simp only [MAX_LEN] at hlen'; omega)
        have hov₂ : intResult ((j₁ : Int) - 1) = .ok ((j₁ : Int) - 1) :=
          intResult_of_bounds (by omega) (by simp only [MAX_LEN] at hlen'; omega)
        have hFs : Frame left right a₀ ((arr.set i₁ (cell arr j₁)).set j₁ (cell arr i₁)) :=
          hF.trans (Frame.swap_cells arr hi₁ hj₁ (by omega) (by omega) (by omega) (by omega))
        have hcell : ∀ k : Nat, cell ((arr.set i₁ (cell arr j₁)).set j₁ (cell arr i₁)) k =
            if k = j₁ then cell arr i₁ else if k = i₁ then cell arr j₁ else cell arr k := by
          intro k
          rw [cell_set, cell_set]
          by_cases hk₁ : j₁ = k
          · subst hk₁; simp [hj₁]
          · by_cases hk₂ : i₁ = k
            · subst hk₂; simp [hk₁, hi₁, Ne.symm hk₁]
            · simp [hk₁, hk₂, Ne.symm hk₁, Ne.symm hk₂]
        obtain ⟨arr', i', j', hrun, hF', h₁, h₂, h₃, h₄, h₅, h₆, h₇, _⟩ :=
          ih ((arr.set i₁ (cell arr j₁)).set j₁ (cell arr i₁)) ((i₁ : Int) + 1) ((j₁ : Int) - 1)
            j₁ i₁ hFs (by omega) (by omega) (by omega) (by omega)
            (by
              intro k hk₁ hk₂
              rw [hcell k]
              by_cases hkj : k = j₁
              · have : i₁ = j₁ := by omega
                rw [if_pos hkj, this]; exact hd₄
              · by_cases hki : k = i₁
                · rw [if_neg hkj, if_pos hki]; exact hd₄
                · rw [if_neg hkj, if_neg hki]
                  by_cases hk : (k : Int) < (i : Int)
                  · exact hge k hk₁ hk
                  · exact le_of_lt (hu₅ k (by omega) (by omega)))
            (by
              intro k hk₁ hk₂
              rw [hcell k]
              by_cases hkj : k = j₁
              · rw [if_pos hkj]; exact hu₄
              · by_cases hki : k = i₁
                · omega
                · rw [if_neg hkj, if_neg hki]
                  by_cases hk : (j : Int) < (k : Int)
                  · exact hle k hk hk₂
                  · exact le_of_lt (hd₅ k (by omega) (by omega)))
            (by
              intro hlt
              have hne : i₁ ≠ j₁ := by omega
              refine ⟨by omega, by omega, ?_, by omega, by omega, ?_⟩
              · rw [hcell j₁, if_pos rfl]; exact hu₄
              · rw [hcell i₁, if_neg hne, if_pos rfl]; exact hd₄)
            (by omega)
        refine ⟨arr', i', j', ?_, hF', h₁, by omega, by omega, h₄, h₅, h₆, h₇,
          fun _ _ => ⟨by omega, by omega⟩⟩
        simp only [partitionLoopAux, hij, if_true, scanUp, hu₁, scanDown, hd₁, ok_bind, h₁₂',
          swap_of_lt hi₁ hj₁, hov₁, hov₂]
        exact hrun
      · have h₁₂' : ¬ (i₁ : Int) ≤ (j₁ : Int) := by exact_mod_cast h₁₂
        refine ⟨arr, i₁, j₁, ?_, hF, by omega, by omega, by omega, by omega, by omega, ?_, ?_,
          fun _ hst => by omega⟩
        · simp only [partitionLoopAux, hij, if_true, scanUp, hu₁, scanDown, hd₁, ok_bind, h₁₂',
            if_false]
          exact partitionLoopAux_exit fuel arr pivot h₁₂'
        · intro k hk₁ hk₂
          by_cases hk : (k : Int) < (i : Int)
          · exact hge k hk₁ hk
          · exact le_of_lt (hu₅ k (by omega) (by omega))
        · intro k hk₁ hk₂
          by_cases hk : (j : Int) < (k : Int)
          · exact hle k hk hk₂
          · exact le_of_lt (hd₅ k (by omega) (by omega))
    · exact ⟨arr, i, j, partitionLoopAux_exit _ arr pivot hij, hF, by omega, le_refl _,
        le_refl _, hir, hlj, hge, hle, fun h => absurd h hij⟩

/-! ## The recursion of `quicksort_desc` -/

theorem quicksort_descAux_skip (fuel : Nat) (arr : List Nat) {left right : Int}
    (h : left ≥ right) : quicksort_descAux fuel arr left right = .ok arr := by
  cases fuel <;> simp [quicksort_descAux, h]

theorem SortedSeg.of_ge {left right : Int} (arr : List Nat) (h : left ≥ right) :
    SortedSeg left right arr := by
  intro k₁ k₂ h₁ h₂ h₃
  have : k₁ = k₂ := by omega
  subst this
  exact le_refl _

/-- On an array within `MAX_LEN` and a range `[left, right]` inside it, `quicksort_desc`
with a recursion budget of `right - left` returns without fault; it permutes the cells
of the range, leaves the other cells alone, and the range ends in descending order. -/
theorem quicksort_descAux_spec :
    ∀ (fuel : Nat) (arr : List Nat) (left right : Int),
      arr.length ≤ MAX_LEN → 0 ≤ left → right < (arr.length : Int) → right - left ≤ (fuel : Int) →
      ∃ arr', quicksort_descAux fuel arr left right = .ok arr' ∧ Frame left right arr arr' ∧
        SortedSeg left right arr' := by
  intro fuel
  induction fuel with
  | zero =>
    intro arr left right _ _ _ hfuel
    have h : left ≥ right := by omega
    exact ⟨arr, quicksort_descAux_skip 0 arr h, Frame.refl _ _ _, SortedSeg.of_ge arr h⟩
  | succ fuel ih =>
    intro arr left right hlen hleft hright hfuel
    by_cases h : left ≥ right
    · exact ⟨arr, quicksort_descAux_skip _ arr h, Frame.refl _ _ _, SortedSeg.of_ge arr h⟩
    · lift left to ℕ using hleft
      lift right to ℕ using (by omega)
      have hsum : intResult ((left : Int) + (right : Int)) = .ok ((left : Int) + (right : Int)) :=
        intResult_of_bounds (by omega) (by simp only [MAX_LEN] at hlen; omega)
      have hmid : ((left : Int) + (right : Int)).tdiv 2 = (((left + right) / 2 : Nat) : Int) := by
        rw [Int.tdiv_eq_ediv (by omega) (by omega)]; omega
      have hmlt : (left + right) / 2 < arr.length := by omega
      obtain ⟨arr₁, i', j', hrun₁, hF₁, hc₁, _, _, hc₄, hc₅, hge, hle, hprog⟩ :=
        partitionLoopAux_spec arr (cell arr ((left + right) / 2)) left right hlen (by omega) hright
          ((right : Int) - (left : Int) + 1).toNat arr left right
          ((left + right) / 2) ((left + right) / 2) (Frame.refl _ _ _) (le_refl _) (le_refl _)
          (by omega) (by omega) (fun k h₁ h₂ => by omega) (fun k h₁ h₂ => by omega)
          (fun _ => ⟨by omega, by omega, le_refl _, by omega, by omega, le_refl _⟩) (by omega)
      obtain ⟨hp₁, hp₂⟩ := hprog (by omega) (le_refl _)
      have hlen₁ : arr₁.length = arr.length := hF₁.1
      obtain ⟨arr₂, hrun₂, hF₂, hS₂⟩ := ih arr₁ left j' (by omega) (by omega) (by omega) (by omega)
      have hlen₂ : arr₂.length = arr₁.length := hF₂.1
      obtain ⟨arr₃, hrun₃, hF₃, hS₃⟩ := ih arr₂ i' right (by omega) (by omega) (by omega) (by omega)
      refine ⟨arr₃, ?_, ?_, ?_⟩
      · have hrun₁' : partitionLoop arr (cell arr ((left + right) / 2)) left right =
            .ok (arr₁, i', j') := hrun₁
        have e₂ : ¬ (left : Int) < j' → arr₁ = arr₂ := by
          intro hc
          rw [quicksort_descAux_skip fuel arr₁ (by omega)] at hrun₂
          exact Except.ok.inj hrun₂
        have e₃ : ¬ i' < (right : Int) → arr₂ = arr₃ := by
          intro hc
          rw [quicksort_descAux_skip fuel arr₂ (by omega)] at hrun₃
          exact Except.ok.inj hrun₃
        simp only [quicksort_descAux, h, if_false, hsum, ok_bind, hmid, readAt_natCast,
          readNat_of_lt hmlt, hrun₁']
        by_cases hc₂ : (left : Int) < j'
        · by_cases hc₃ : i' < (right : Int)
          · simp only [hc₂, hc₃, if_true, hrun₂, ok_bind, hrun₃]
          · simp only [hc₂, hc₃, if_true, if_false, hrun₂, ok_bind, pure_eq_ok, e₃ hc₃]
        · by_cases hc₃ : i' < (right : Int)
          · simp only [hc₂, hc₃, if_true, if_false, pure_eq_ok, ok_bind, e₂ hc₂, hrun₃]
          · simp only [hc₂, hc₃, if_false, pure_eq_ok, ok_bind, e₂ hc₂, e₃ hc₃]
      · exact hF₁.trans ((hF₂.mono (le_refl _) (by omega)).trans (hF₃.mono (by omega) (le_refl _)))
      · have hA : ∀ k : Nat, (left : Int) ≤ k → (k : Int) ≤ j' →
            cell arr ((left + right) / 2) ≤ cell arr₃ k := by
          intro k h₁ h₂
          rw [hF₃.2.2 k (Or.inl (by omega))]
          obtain ⟨k', hk₁, hk₂, _, hk₄⟩ := hF₂.cell_inside h₁ h₂ (by omega)
          rw [hk₄]
          exact hge k' hk₁ (by omega)
        have hM : ∀ k : Nat, j' < (k : Int) → (k : Int) < i' →
            cell arr₃ k = cell arr ((left + right) / 2) := by
          intro k h₁ h₂
          rw [hF₃.2.2 k (Or.inl h₂), hF₂.2.2 k (Or.inr h₁)]
          exact le_antisymm (hle k h₁ (by omega)) (hge k (by omega) h₂)
        have hB : ∀ k : Nat, i' ≤ (k : Int) → (k : Int) ≤ right →
            cell arr₃ k ≤ cell arr ((left + right) / 2) := by
          intro k h₁ h₂
          obtain ⟨k', hk₁, hk₂, _, hk₄⟩ := hF₃.cell_inside h₁ h₂ (by omega)
          rw [hk₄, hF₂.2.2 k' (Or.inr (by omega))]
          exact hle k' (by omega) hk₂
        intro k₁ k₂ h₁ h₂ h₃
        by_cases hc₂ : (k₂ : Int) ≤ j'
        · rw [hF₃.2.2 k₁ (Or.inl (by omega)), hF₃.2.2 k₂ (Or.inl (by omega))]
          exact hS₂ k₁ k₂ h₁ h₂ hc₂
        · by_cases hc₃ : i' ≤ (k₁ : Int)
          · exact hS₃ k₁ k₂ hc₃ h₂ h₃
          · have hlo : cell arr₃ k₂ ≤ cell arr ((left + right) / 2) := by
              by_cases hk : (k₂ : Int) < i'
              · exact le_of_eq (hM k₂ (by omega) hk)
              · exact hB k₂ (by omega) h₃
            have hhi : cell arr ((left + right) / 2) ≤ cell arr₃ k₁ := by
              by_cases hk : j' < (k₁ : Int)
              · exact le_of_eq (hM k₁ hk (by omega)).symm
              · exact hA k₁ h₁ (by omega)
            exact le_trans hlo hhi

/-! ## `sort_array` on arrays within `MAX_LEN` -/

theorem toInt_of_le {u : Nat} (h : u ≤ 2147483647) : toInt u = (u : Int) := by
  have : (u : Int) ≤ INT_MAX := by simp only [INT_MAX]; omega
  simp [toInt, this]

/-- On an array of at most `MAX_LEN` cells, `sort_array` returns without fault an array
of the same length that is a permutation of the input and is in descending order. -/
theorem sort_array_spec (arr : List Nat) (hlen : arr.length ≤ MAX_LEN) :
    ∃ out, sort_array arr arr.length = .ok out ∧ out.length = arr.length ∧ out.Perm arr ∧
      SortedSeg 0 ((arr.length : Int) - 1) out := by
  by_cases h : arr.length < 2
  · refine ⟨arr, by simp [sort_array, h], rfl, List.Perm.refl _, SortedSeg.of_ge arr (by omega)⟩
  · have hto : toInt arr.length = (arr.length : Int) :=
      toInt_of_le (by simp only [MAX_LEN] at hlen; omega)
    have hov : intResult ((arr.length : Int) - 1) = .ok ((arr.length : Int) - 1) :=
      intResult_of_bounds (by omega) (by simp only [MAX_LEN] at hlen; omega)
    obtain ⟨out, hrun, hF, hS⟩ := quicksort_descAux_spec
      (((arr.length : Int) - 1) - 0).toNat arr 0 ((arr.length : Int) - 1) hlen (le_refl _)
      (by omega) (by omega)
    refine ⟨out, ?_, hF.1, hF.2.1, hS⟩
    simp only [sort_array, h, if_false, hto, hov, ok_bind, quicksort_desc]
    exact hrun

/-! ## Descending order -/

theorem NonIncreasing.of_sortedSeg {arr : List Nat}
    (h : SortedSeg 0 ((arr.length : Int) - 1) arr) : NonIncreasing arr := by
  intro k hk
  exact h k (k + 1) (by omega) (by omega) (by omega)

theorem NonIncreasing.cell_le {arr : List Nat} (h : NonIncreasing arr) :
    ∀ (d k : Nat), k + d < arr.length → cell arr (k + d) ≤ cell arr k := by
  intro d
  induction d with
  | zero => intro k _; exact le_refl _
  | succ d ih =>
    intro k hk
    exact le_trans (h (k + d) (by omega)) (ih k (by omega))

theorem NonIncreasing.pairwise {arr : List Nat} (h : NonIncreasing arr) :
    arr.Pairwise (fun x y => x ≥ y) := by
  rw [List.pairwise_iff_getElem]
  intro i j hi hj hij
  have := h.cell_le (j - i) i (by omega)
  rw [show i + (j - i) = j by omega] at this
  rwa [cell_eq_getElem hi, cell_eq_getElem hj] at this

/-- A descending array is the only descending permutation of its contents. -/
theorem NonIncreasing.eq_of_perm {a b : List Nat} (ha : NonIncreasing a) (hb : NonIncreasing b)
    (hp : a.Perm b) : a = b :=
  List.eq_of_perm_of_sorted hp ha.pairwise hb.pairwise

/-! ## What every completed run of the sort preserves -/

theorem swap_perm {a b : List Nat} {i j : Int} (h : swap a i j = .ok b) : b.Perm a := by
  unfold swap readAt at h
  by_cases hi : i < 0
  · simp [hi] at h
  · by_cases hj : j < 0
    · simp only [hi, hj, if_true, if_false] at h
      cases hv : a[i.toNat]? <;> simp [hv] at h
    · simp only [hi, hj, if_false] at h
      cases hv : a[i.toNat]? with
      | none => simp [hv] at h
      | some v =>
        cases hw : a[j.toNat]? with
        | none => simp [hv, hw] at h
        | some w =>
          simp only [hv, hw, ok_bind, pure_eq_ok] at h
          have hil : i.toNat < a.length := (List.getElem?_eq_some.1 hv).1
          have hjl : j.toNat < a.length := (List.getElem?_eq_some.1 hw).1
          have e₁ : cell a i.toNat = v := by simp [cell, hv]
          have e₂ : cell a j.toNat = w := by simp [cell, hw]
          rw [← Except.ok.inj h, ← e₁, ← e₂]
          exact perm_set_set a hil hjl

theorem partitionLoopAux_perm (pivot : Nat) :
    ∀ (fuel : Nat) (arr : List Nat) (i j : Int) (out : List Nat × Int × Int),
      partitionLoopAux fuel arr pivot i j = .ok out → out.1.Perm arr := by
  intro fuel
  induction fuel with
  | zero =>
    intro arr i j out h
    by_cases hij : i ≤ j
    · simp [partitionLoopAux, hij] at h
    · simp only [partitionLoopAux, hij, if_false] at h
      rw [← Except.ok.inj h]
  | succ fuel ih =>
    intro arr i j out h
    by_cases hij : i ≤ j
    · simp only [partitionLoopAux, hij, if_true] at h
      cases h₁ : scanUp arr pivot i with
      | error e => simp [h₁] at h
      | ok i₁ =>
        cases h₂ : scanDown arr pivot j with
        | error e => simp [h₁, h₂] at h
        | ok j₁ =>
          simp only [h₁, h₂, ok_bind] at h
          by_cases h₁₂ : i₁ ≤ j₁
          · simp only [h₁₂, if_true] at h
            cases h₃ : swap arr i₁ j₁ with
            | error e => simp [h₃] at h
            | ok arr₁ =>
              cases h₄ : intResult (i₁ + 1) with
              | error e => simp [h₃, h₄] at h
              | ok i₂ =>
                cases h₅ : intResult (j₁ - 1) with
                | error e => simp [h₃, h₄, h₅] at h
                | ok j₂ =>
                  simp only [h₃, h₄, h₅, ok_bind] at h
                  exact (ih arr₁ i₂ j₂ out h).trans (swap_perm h₃)
          · simp only [h₁₂, if_false] at h
            exact ih arr i₁ j₁ out h
    · simp only [partitionLoopAux, hij, if_false] at h
      rw [← Except.ok.inj h]

theorem quicksort_descAux_perm :
    ∀ (fuel : Nat) (arr : List Nat) (left right : Int) (out : List Nat),
      quicksort_descAux fuel arr left right = .ok out → out.Perm arr := by
  intro fuel
  induction fuel with
  | zero =>
    intro arr left right out h
    by_cases hlr : left ≥ right
    · rw [quicksort_descAux_skip 0 arr hlr] at h
      rw [← Except.ok.inj h]
    · simp [quicksort_descAux, hlr] at h
  | succ fuel ih =>
    intro arr left right out h
    by_cases hlr : left ≥ right
    · rw [quicksort_descAux_skip _ arr hlr] at h
      rw [← Except.ok.inj h]
    · simp only [quicksort_descAux, hlr, if_false] at h
      cases h₁ : intResult (left + right) with
      | error e => simp [h₁] at h
      | ok s =>
        cases h₂ : readAt arr (s.tdiv 2) with
        | error e => simp [h₁, h₂] at h
        | ok pivot =>
          cases h₃ : partitionLoop arr pivot left right with
          | error e => simp [h₁, h₂, h₃] at h
          | ok res =>
            obtain ⟨arr₁, i', j'⟩ := res
            have hp₁ : arr₁.Perm arr := partitionLoopAux_perm pivot _ arr left right _ h₃
            simp only [h₁, h₂, h₃, ok_bind] at h
            have key : ∀ (c : Prop) [Decidable c] (l r : Int) (a b : List Nat),
                (if c then quicksort_descAux fuel a l r else pure a) = .ok b → b.Perm a := by
              intro c _ l r a b hb
              by_cases hc : c
              · rw [if_pos hc] at hb; exact ih a l r b hb
              · rw [if_neg hc] at hb; rw [← Except.ok.inj hb]
            by_cases hc : left < j'
            · simp only [hc, if_true] at h
              cases h₄ : quicksort_descAux fuel arr₁ left j' with
              | error e => simp [h₄] at h
              | ok arr₂ =>
                simp only [h₄, ok_bind] at h
                exact ((key _ _ _ _ _ h).trans (ih _ _ _ _ h₄)).trans hp₁
            · simp only [hc, if_false, pure_eq_ok, ok_bind] at h
              exact (key _ _ _ _ _ h).trans hp₁

/-- Whenever `sort_array` returns, the array is a permutation of the input. -/
theorem sort_array_perm {arr out : List Nat} {len : Nat} (h : sort_array arr len = .ok out) :
    out.Perm arr := by
  unfold sort_array at h
  by_cases hlen : len < 2
  · simp only [hlen, if_true] at h
    rw [← Except.ok.inj h]
  · simp only [hlen, if_false] at h
    cases h₁ : intResult (toInt len - 1) with
    | error e => simp [h₁] at h
    | ok r =>
      simp only [h₁, ok_bind] at h
      exact quicksort_descAux_perm _ arr 0 r out h

/-! ## The loops of the statistics -/

theorem find_minimum_loop_spec (arr : List Nat) :
    ∀ (n i min : Nat), i + n ≤ arr.length →
      ∃ m, find_minimum_loop arr n i min = .ok m ∧ m ≤ min ∧
        (∀ k, i ≤ k → k < i + n → m ≤ cell arr k) ∧
        (m = min ∨ ∃ k, i ≤ k ∧ k < i + n ∧ cell arr k = m) := by
  intro n
  induction n with
  | zero =>
    intro i min _
    exact ⟨min, rfl, le_refl _, fun k h₁ h₂ => by omega, Or.inl rfl⟩
  | succ n ih =>
    intro i min h
    obtain ⟨m, hrun, h₁, h₂, h₃⟩ :=
      ih (i + 1) (if cell arr i < min then cell arr i else min) (by omega)
    have hmin : (if cell arr i < min then cell arr i else min) ≤ min := by
      split <;> omega
    have hcell : (if cell arr i < min then cell arr i else min) ≤ cell arr i := by
      split <;> omega
    refine ⟨m, ?_, le_trans h₁ hmin, ?_, ?_⟩
    · simp only [find_minimum_loop, readNat_of_lt (show i < arr.length by omega), ok_bind]
      exact hrun
    · intro k hk₁ hk₂
      by_cases hk : k = i
      · subst hk; exact le_trans h₁ hcell
      · exact h₂ k (by omega) (by omega)
    · rcases h₃ with h₃ | ⟨k, hk₁, hk₂, hk₃⟩
      · by_cases hc : cell arr i < min
        · rw [if_pos hc] at h₃
          exact Or.inr ⟨i, le_refl _, by omega, h₃.symm⟩
        · rw [if_neg hc] at h₃
          exact Or.inl h₃
      · exact Or.inr ⟨k, by omega, by omega, hk₃⟩

theorem find_maximum_loop_spec (arr : List Nat) :
    ∀ (n i max : Nat), i + n ≤ arr.length →
      ∃ m, find_maximum_loop arr n i max = .ok m ∧ max ≤ m ∧
        (∀ k, i ≤ k → k < i + n → cell arr k ≤ m) ∧
        (m = max ∨ ∃ k, i ≤ k ∧ k < i + n ∧ cell arr k = m) := by
  intro n
  induction n with
  | zero =>
    intro i max _
    exact ⟨max, rfl, le_refl _, fun k h₁ h₂ => by omega, Or.inl rfl⟩
  | succ n ih =>
    intro i max h
    obtain ⟨m, hrun, h₁, h₂, h₃⟩ :=
      ih (i + 1) (if cell arr i > max then cell arr i else max) (by omega)
    have hmax : max ≤ (if cell arr i > max then cell arr i else max) := by
      split <;> omega
    have hcell : cell arr i ≤ (if cell arr i > max then cell arr i else max) := by
      split <;> omega
    refine ⟨m, ?_, le_trans hmax h₁, ?_, ?_⟩
    · simp only [find_maximum_loop, readNat_of_lt (show i < arr.length by omega), ok_bind]
      exact hrun
    · intro k hk₁ hk₂
      by_cases hk : k = i
      · subst hk; exact le_trans hcell h₁
      · exact h₂ k (by omega) (by omega)
    · rcases h₃ with h₃ | ⟨k, hk₁, hk₂, hk₃⟩
      · by_cases hc : cell arr i > max
        · rw [if_pos hc] at h₃
          exact Or.inr ⟨i, le_refl _, by omega, h₃.symm⟩
        · rw [if_neg hc] at h₃
          exact Or.inl h₃
      · exact Or.inr ⟨k, by omega, by omega, hk₃⟩

/-- On a non-empty array, `find_minimum` returns a value held by some cell that is at
most the value of every cell. -/
theorem find_minimum_spec (arr : List Nat) (h : arr ≠ []) :
    ∃ m, find_minimum arr arr.length = .ok m ∧ (∀ k, k < arr.length → m ≤ cell arr k) ∧
      ∃ k, k < arr.length ∧ cell arr k = m := by
  have hpos : 0 < arr.length := List.length_pos.2 h
  obtain ⟨m, hrun, h₁, h₂, h₃⟩ :=
    find_minimum_loop_spec arr (arr.length - 1) 1 (cell arr 0) (by omega)
  refine ⟨m, ?_, ?_, ?_⟩
  · simp only [find_minimum, Nat.ne_of_gt hpos, if_false, readNat_of_lt hpos, ok_bind]
    exact hrun
  · intro k hk
    by_cases hk0 : k = 0
    · subst hk0; exact h₁
    · exact h₂ k (by omega) (by omega)
  · rcases h₃ with h₃ | ⟨k, _, hk₂, hk₃⟩
    · exact ⟨0, hpos, h₃.symm⟩
    · exact ⟨k, by omega, hk₃⟩

/-- On a non-empty array, `find_maximum` returns a value held by some cell that is at
least the value of every cell. -/
theorem find_maximum_spec (arr : List Nat) (h : arr ≠ []) :
    ∃ m, find_maximum arr arr.length = .ok m ∧ (∀ k, k < arr.length → cell arr k ≤ m) ∧
      ∃ k, k < arr.length ∧ cell arr k = m := by
  have hpos : 0 < arr.length := List.length_pos.2 h
  obtain ⟨m, hrun, h₁, h₂, h₃⟩ :=
    find_maximum_loop_spec arr (arr.length - 1) 1 (cell arr 0) (by omega)
  refine ⟨m, ?_, ?_, ?_⟩
  · simp only [find_maximum, Nat.ne_of_gt hpos, if_false, readNat_of_lt hpos, ok_bind]
    exact hrun
  · intro k hk
    by_cases hk0 : k = 0
    · subst hk0; exact h₁
    · exact h₂ k (by omega) (by omega)
  · rcases h₃ with h₃ | ⟨k, _, hk₂, hk₃⟩
    · exact ⟨0, hpos, h₃.symm⟩
    · exact ⟨k, by omega, hk₃⟩

theorem find_mean_loop_spec (arr : List Nat) :
    ∀ (n i sum : Nat), i + n ≤ arr.length → sum < UINT_RANGE →
      find_mean_loop arr n i sum = .ok ((sum + ((arr.drop i).take n).sum) % UINT_RANGE) := by
  intro n
  induction n with
  | zero =>
    intro i sum _ hsum
    simp [find_mean_loop, Nat.mod_eq_of_lt hsum]
  | succ n ih =>
    intro i sum h hsum
    have hi : i < arr.length := by omega
    have hdrop : arr.drop i = cell arr i :: arr.drop (i + 1) := by
      rw [cell_eq_getElem hi]; exact List.drop_eq_getElem_cons hi
    simp only [find_mean_loop, readNat_of_lt hi, ok_bind]
    rw [ih (i + 1) _ (by omega) (Nat.mod_lt _ (by decide)), hdrop, List.take_succ_cons,
      List.sum_cons, Nat.mod_add_mod, Nat.add_assoc]

/-- On a non-empty array, `find_mean` returns the sum of the cells reduced modulo
`UINT_RANGE`, divided by the length, reduced modulo `UCHAR_RANGE`. -/
theorem find_mean_spec (arr : List Nat) (h : arr ≠ []) :
    find_mean arr arr.length = .ok ((arr.sum % UINT_RANGE / arr.length) % UCHAR_RANGE) := by
  have hpos : 0 < arr.length := List.length_pos.2 h
  simp only [find_mean, Nat.ne_of_gt hpos, if_false,
    find_mean_loop_spec arr arr.length 0 0 (by omega) (by decide), ok_bind, pure_eq_ok,
    List.drop_zero, List.take_length, Nat.zero_add]

theorem copy_loop_spec (arr : List Nat) :
    ∀ (n i : Nat) (tmp : List Nat), i + n ≤ arr.length → tmp.length = arr.length →
      (∀ k, k < i → cell tmp k = cell arr k) →
      ∃ out, copy_loop arr n i tmp = .ok out ∧ out.length = arr.length ∧
        ∀ k, k < i + n → cell out k = cell arr k := by
  intro n
  induction n with
  | zero =>
    intro i tmp _ hlen hpre
    exact ⟨tmp, rfl, hlen, fun k hk => hpre k (by omega)⟩
  | succ n ih =>
    intro i tmp h hlen hpre
    have hi : i < arr.length := by omega
    obtain ⟨out, hrun, h₁, h₂⟩ := ih (i + 1) (tmp.set i (cell arr i)) (by omega) (by simpa using hlen)
      (by
        intro k hk
        rw [cell_set]
        by_cases hki : i = k
        · subst hki; simp [hlen, hi]
        · rw [if_neg (fun hc => hki hc.1)]; exact hpre k (by omega))
    refine ⟨out, ?_, h₁, fun k hk => h₂ k (by omega)⟩
    simp only [copy_loop, readNat_of_lt hi, ok_bind, hlen, hi, if_true]
    exact hrun

/-- The copy loop of `print_statistics` fills a buffer of the right size with the
contents of the array. -/
theorem copy_loop_eq (arr tmp : List Nat) (hlen : tmp.length = arr.length) :
    copy_loop arr arr.length 0 tmp = .ok arr := by
  obtain ⟨out, hrun, h₁, h₂⟩ := copy_loop_spec arr arr.length 0 tmp (by omega) hlen
    (fun k hk => by omega)
  rw [hrun, list_ext_cell h₁ (fun k hk => h₂ k (by omega))]

/-! ## `find_median` -/

theorem find_median_of_sort {arr out : List Nat} {len : Nat} (hpos : 0 < len)
    (hsort : sort_array arr len = .ok out) (hlen : out.length = len) :
    find_median arr len = .ok (out, centralValue out len) := by
  have h₁ : len / 2 < out.length := by omega
  have h₂ : len / 2 - 1 < out.length := by omega
  by_cases hodd : len &&& 1 ≠ 0
  · simp only [find_median, Nat.ne_of_gt hpos, if_false, hsort, ok_bind, hodd, if_true,
      readNat_of_lt h₁, pure_eq_ok, centralValue, ne_eq, not_false_eq_true]
  · simp only [find_median, Nat.ne_of_gt hpos, if_false, hsort, ok_bind, hodd,
      readNat_of_lt h₁, readNat_of_lt h₂, pure_eq_ok, centralValue]

theorem find_median_of_sort_error {arr : List Nat} {len : Nat} {e : Fault} (hpos : 0 < len)
    (hsort : sort_array arr len = .error e) : find_median arr len = .error e := by
  simp only [find_median, Nat.ne_of_gt hpos, if_false, hsort, error_bind]

theorem centralValue_of_bytes {out : List Nat} (hb : Bytes out) (k₁ k₂ : Nat)
    (h₁ : k₁ < out.length) (h₂ : k₂ < out.length) :
    ((cell out k₁ + cell out k₂) / 2) % UCHAR_RANGE = (cell out k₁ + cell out k₂) / 2 := by
  have := hb _ (cell_mem h₁)
  have := hb _ (cell_mem h₂)
  simp only [UCHAR_RANGE] at *
  omega

/-- On a non-empty byte array of at most `MAX_LEN` cells, `find_median` leaves the
descending sort `D` of the array in the buffer and returns its central cell when the
length is odd, the truncated average of its two central cells when the length is even. -/
theorem find_median_spec (S D : List Nat) (hne : S ≠ []) (hlen : S.length ≤ MAX_LEN)
    (hb : Bytes S) (hperm : D.Perm S) (hD : NonIncreasing D) :
    find_median S S.length = .ok (D,
      if S.length % 2 = 1 then cell D (S.length / 2)
      else (cell D (S.length / 2 - 1) + cell D (S.length / 2)) / 2) := by
  have hpos : 0 < S.length := List.length_pos.2 hne
  obtain ⟨out, hrun, hl, hp, hs⟩ := sort_array_spec S hlen
  have hout : out = D :=
    NonIncreasing.eq_of_perm (NonIncreasing.of_sortedSeg (by rw [hl]; exact hs)) hD
      (hp.trans hperm.symm)
  subst hout
  rw [find_median_of_sort hpos hrun hl]
  have hbo : Bytes out := fun x hx => hb x (hp.mem_iff.1 hx)
  have hmod : S.length &&& 1 = S.length % 2 := Nat.and_one_is_mod _
  by_cases hodd : S.length % 2 = 1
  · simp [centralValue, hmod, hodd]
  · have h0 : S.length % 2 = 0 := by omega
    rw [if_neg hodd]
    simp only [centralValue, hmod, h0, ne_eq, not_true_eq_false, if_false]
    rw [centralValue_of_bytes hbo _ _ (by omega) (by omega)]

/-! ## Arrays too long for `int` indices -/

/-- A length above `INT_MAX + 1` converts to a negative `int`, and `sort_array` returns
at once. -/
theorem sort_array_of_long (arr : List Nat) (len : Nat) (h₁ : 2147483648 < len)
    (h₂ : len < 4294967296) : sort_array arr len = .ok arr := by
  have hlen : ¬ len < 2 := by omega
  have hto : toInt len = (len : Int) - 4294967296 := by
    have : ¬ (len : Int) ≤ INT_MAX := by simp only [INT_MAX]; omega
    simp [toInt, this, UINT_RANGE]
  have hov : intResult ((len : Int) - 4294967296 - 1) = .ok ((len : Int) - 4294967296 - 1) :=
    intResult_of_bounds (by omega) (by omega)
  simp only [sort_array, hlen, if_false, hto, hov, ok_bind, quicksort_desc]
  exact quicksort_descAux_skip _ arr (by omega)

/-- At the length `INT_MAX + 1` the computation `(int)len - 1` overflows. -/
theorem sort_array_of_int_min (arr : List Nat) :
    sort_array arr 2147483648 = .error .intOverflow := by
  have hto : toInt 2147483648 = -2147483648 := by
    simp [toInt, INT_MAX, UINT_RANGE]
  simp [sort_array, hto, intResult, INT_MIN, INT_MAX]

theorem cell_append_left {a b : List Nat} {k : Nat} (h : k < a.length) :
    cell (a ++ b) k = cell a k := by
  simp [cell, List.getElem?_append_left h]

theorem cell_append_right {a b : List Nat} {k : Nat} (h : a.length ≤ k) :
    cell (a ++ b) k = cell b (k - a.length) := by
  simp [cell, List.getElem?_append_right h]

theorem cell_replicate {n v k : Nat} (h : k < n) : cell (List.replicate n v) k = v := by
  simp [cell, List.getElem?_replicate, h]

theorem not_nonIncreasing_replicate_append (n : Nat) (hn : 0 < n) :
    ¬ NonIncreasing (List.replicate n 0 ++ [1]) := by
  intro h
  have := h (n - 1) (by simp; omega)
  rw [NonIncreasing] at h
  have e₁ : (List.replicate n 0 ++ [1]).getD (n - 1 + 1) 0 = 1 := by
    have := cell_append_right (a := List.replicate n 0) (b := [1]) (k := n - 1 + 1)
      (by simp; omega)
    simp only [cell, List.length_replicate] at this
    rw [this, show n - 1 + 1 - n = 0 by omega]; rfl
  have e₂ : (List.replicate n 0 ++ [1]).getD (n - 1) 0 = 0 := by
    have := cell_append_left (a := List.replicate n 0) (b := [1]) (k := n - 1)
      (by simp; omega)
    simp only [cell] at this
    rw [this]
    exact cell_replicate (by omega)
  rw [e₁, e₂] at this
  omega

theorem sum_replicate_eq_mul (n v : Nat) : (List.replicate n v).sum = n * v := by
  rw [List.sum_replicate, smul_eq_mul]

theorem find_mean_replicate (n v : Nat) (hn : 0 < n) :
    find_mean (List.replicate n v) n =
      .ok (((n * v) % UINT_RANGE / n) % UCHAR_RANGE) := by
  have hne : List.replicate n v ≠ [] := by
    intro h
    have := congrArg List.length h
    simp at this; omega
  have := find_mean_spec (List.replicate n v) hne
  simpa [List.sum_replicate] using this

/-! ## Properties of the specification -/

/-- C1, at an input where it fails: for the array of 2147483649 bytes made of
2147483648 zeros followed by a one, `sort_array` returns with the array as it was, and
that array is not non-increasing: its last two cells are 0 then 1. -/
theorem sort_array_leaves_long_array_unsorted :
    Bytes (List.replicate 2147483648 0 ++ [1]) ∧
    (List.replicate 2147483648 0 ++ [1]).length = 2147483649 ∧
    sort_array (List.replicate 2147483648 0 ++ [1]) 2147483649 =
      .ok (List.replicate 2147483648 0 ++ [1]) ∧
    ¬ NonIncreasing (List.replicate 2147483648 0 ++ [1]) := by
  refine ⟨?_, ?_, sort_array_of_long _ _ (by decide) (by decide),
    not_nonIncreasing_replicate_append _ (by decide)⟩
  · intro x hx
    rcases List.mem_append.1 hx with h | h
    · rw [List.eq_of_mem_replicate h]; decide
    · rw [List.mem_singleton.1 h]; decide
  · rw [List.length_append, List.length_replicate]; rfl

/-- C2, at an input where it fails: for an array of 2147483648 bytes (here all zero)
the `int` computation `(int)len - 1` of `sort_array` overflows, which is undefined
behaviour, so the call yields no array that is a permutation of the input. -/
theorem sort_array_overflows_at_int_min :
    Bytes (List.replicate 2147483648 0) ∧
    (List.replicate 2147483648 0).length = 2147483648 ∧
    sort_array (List.replicate 2147483648 0) 2147483648 = .error .intOverflow ∧
    ¬ ∃ out, sort_array (List.replicate 2147483648 0) 2147483648 = .ok out ∧
      out.Perm (List.replicate 2147483648 0) := by
  refine ⟨?_, List.length_replicate _ _, sort_array_of_int_min _, ?_⟩
  · intro x hx
    rw [List.eq_of_mem_replicate hx]; decide
  · rintro ⟨out, h, _⟩
    rw [sort_array_of_int_min] at h
    cases h

/-- C3: for every non-empty array `S` and every index `k` below its length,
`find_minimum` and `find_maximum` return values with
`find_minimum(S) ≤ S[k] ≤ find_maximum(S)`. -/
theorem minimum_le_cell_le_maximum (S : List Nat) (k : Nat) (hne : S ≠ []) (hk : k < S.length) :
    ∃ mn mx, find_minimum S S.length = .ok mn ∧ find_maximum S S.length = .ok mx ∧
      mn ≤ S[k] ∧ S[k] ≤ mx := by
  obtain ⟨mn, h₁, h₂, _⟩ := find_minimum_spec S hne
  obtain ⟨mx, h₃, h₄, _⟩ := find_maximum_spec S hne
  refine ⟨mn, mx, h₁, h₃, ?_, ?_⟩
  · rw [← cell_eq_getElem hk]; exact h₂ k hk
  · rw [← cell_eq_getElem hk]; exact h₄ k hk

/-- Instance of C3 on the array `[34, 201, 190, 154, 8]` at index 2. -/
theorem minimum_le_cell_le_maximum_witness :
    ([34, 201, 190, 154, 8] ≠ [] ∧ 2 < [34, 201, 190, 154, 8].length) ∧
    ∃ mn mx, find_minimum [34, 201, 190, 154, 8] 5 = .ok mn ∧
      find_maximum [34, 201, 190, 154, 8] 5 = .ok mx ∧ mn ≤ 190 ∧ 190 ≤ mx :=
  ⟨⟨by decide, by decide⟩,
    minimum_le_cell_le_maximum [34, 201, 190, 154, 8] 2 (by decide) (by decide)⟩

/-- C4: for every non-empty array `S`, the value `find_minimum` returns is held by some
cell of `S` and is at most every element, and the value `find_maximum` returns is held
by some cell of `S` and is at least every element. -/
theorem minimum_maximum_attained (S : List Nat) (hne : S ≠ []) :
    ∃ mn mx, find_minimum S S.length = .ok mn ∧ find_maximum S S.length = .ok mx ∧
      (∃ k : Nat, S[k]? = some mn) ∧ (∀ x ∈ S, mn ≤ x) ∧
      (∃ k : Nat, S[k]? = some mx) ∧ (∀ x ∈ S, x ≤ mx) := by
  obtain ⟨mn, h₁, h₂, k₁, hk₁, e₁⟩ := find_minimum_spec S hne
  obtain ⟨mx, h₃, h₄, k₂, hk₂, e₂⟩ := find_maximum_spec S hne
  refine ⟨mn, mx, h₁, h₃, ⟨k₁, ?_⟩, ?_, ⟨k₂, ?_⟩, ?_⟩
  · rw [List.getElem?_eq_getElem hk₁, ← cell_eq_getElem hk₁, e₁]
  · intro x hx
    obtain ⟨k, hk, rfl⟩ := exists_cell_of_mem hx
    exact h₂ k hk
  · rw [List.getElem?_eq_getElem hk₂, ← cell_eq_getElem hk₂, e₂]
  · intro x hx
    obtain ⟨k, hk, rfl⟩ := exists_cell_of_mem hx
    exact h₄ k hk

/-- Instance of C4 on the array `[34, 201, 190, 154, 8]`. -/
theorem minimum_maximum_attained_witness :
    [34, 201, 190, 154, 8] ≠ [] ∧
    ∃ mn mx, find_minimum [34, 201, 190, 154, 8] 5 = .ok mn ∧
      find_maximum [34, 201, 190, 154, 8] 5 = .ok mx ∧
      (∃ k : Nat, [34, 201, 190, 154, 8][k]? = some mn) ∧ (∀ x ∈ [34, 201, 190, 154, 8], mn ≤ x) ∧
      (∃ k : Nat, [34, 201, 190, 154, 8][k]? = some mx) ∧ (∀ x ∈ [34, 201, 190, 154, 8], x ≤ mx) :=
  ⟨by decide, minimum_maximum_attained [34, 201, 190, 154, 8] (by decide)⟩

/-- C5, at an input where it fails: for the array `S` of 2147483649 bytes made of
1073741824 zeros, a five and 1073741824 zeros, `find_median` returns 5, the value of
the central cell of `S` itself, whereas the descending sort `D` of `S` (a five followed
by 2147483648 zeros) holds 0 in its central cell `D[n/2]`. -/
theorem find_median_of_long_array_not_central :
    Bytes (List.replicate 1073741824 0 ++ 5 :: List.replicate 1073741824 0) ∧
    (List.replicate 1073741824 0 ++ 5 :: List.replicate 1073741824 0).length = 2147483649 ∧
    find_median (List.replicate 1073741824 0 ++ 5 :: List.replicate 1073741824 0) 2147483649 =
      .ok (List.replicate 1073741824 0 ++ 5 :: List.replicate 1073741824 0, 5) ∧
    (5 :: List.replicate 2147483648 0).Perm
      (List.replicate 1073741824 0 ++ 5 :: List.replicate 1073741824 0) ∧
    NonIncreasing (5 :: List.replicate 2147483648 0) ∧
    2147483649 % 2 = 1 ∧
    cell (5 :: List.replicate 2147483648 0) (2147483649 / 2) = 0 := by
  have hlen : (List.replicate 1073741824 0 ++ 5 :: List.replicate 1073741824 0).length =
      2147483649 := by
    rw [List.length_append, List.length_cons, List.length_replicate]
  have hcentral : cell (List.replicate 1073741824 0 ++ 5 :: List.replicate 1073741824 0)
      1073741824 = 5 := by
    rw [cell_append_right (by rw [List.length_replicate]), List.length_replicate]
    rfl
  refine ⟨?_, hlen, ?_, ?_, ?_, by decide, ?_⟩
  · intro x hx
    rcases List.mem_append.1 hx with h | h
    · rw [List.eq_of_mem_replicate h]; decide
    · rcases List.mem_cons.1 h with h | h
      · rw [h]; decide
      · rw [List.eq_of_mem_replicate h]; decide
  · rw [find_median_of_sort (by decide) (sort_array_of_long _ _ (by decide) (by decide)) hlen]
    have hv : centralValue (List.replicate 1073741824 0 ++ 5 :: List.replicate 1073741824 0)
        2147483649 = 5 := by
      have hodd : (2147483649 &&& 1 ≠ 0) := by decide
      rw [centralValue, if_pos hodd, show 2147483649 / 2 = 1073741824 by decide, hcentral]
    rw [hv]
  · have h₁ : (5 :: List.replicate 2147483648 0) =
        5 :: (List.replicate 1073741824 0 ++ List.replicate 1073741824 0) := by
      rw [List.append_replicate_replicate]
    rw [h₁]
    exact List.perm_middle.symm
  · intro k hk
    have hk' : k < 2147483648 := by
      rw [List.length_cons, List.length_replicate] at hk; omega
    have e₁ : (5 :: List.replicate 2147483648 0).getD (k + 1) 0 = 0 := by
      rw [List.getD_cons_succ]; exact cell_replicate hk'
    rw [e₁]; exact Nat.zero_le _
  · rw [show 2147483649 / 2 = 1073741823 + 1 by decide]
    show (5 :: List.replicate 2147483648 0).getD (1073741823 + 1) 0 = 0
    rw [List.getD_cons_succ]; exact cell_replicate (by decide)

/-- C6, at an input where it fails: for the array of 16843010 bytes all equal to 255,
the 32-bit accumulator of `find_mean` wraps and the function returns 0, whereas the sum
of the elements divided by the length and reduced modulo 256 is 255. -/
theorem find_mean_wraps_on_long_array :
    Bytes (List.replicate 16843010 255) ∧
    (List.replicate 16843010 255).length = 16843010 ∧
    find_mean (List.replicate 16843010 255) 16843010 = .ok 0 ∧
    ((List.replicate 16843010 255).sum / 16843010) % 256 = 255 := by
  refine ⟨?_, List.length_replicate _ _, ?_, ?_⟩
  · intro x hx
    rw [List.eq_of_mem_replicate hx]; decide
  · rw [find_mean_replicate _ _ (by decide)]
    norm_num [UINT_RANGE, UCHAR_RANGE]
  · rw [sum_replicate_eq_mul]

/-- C7: for the empty input (`len == 0`) each of `find_mean`, `find_minimum`,
`find_maximum` and `find_median` returns 0 without fault, whatever the array argument
is (even an array with no cell to read), and `find_median` leaves the array as it
was. -/
theorem statistics_of_empty_input (arr : List Nat) :
    find_mean arr 0 = .ok 0 ∧ find_minimum arr 0 = .ok 0 ∧ find_maximum arr 0 = .ok 0 ∧
    find_median arr 0 = .ok (arr, 0) :=
  ⟨rfl, rfl, rfl, rfl⟩

/-- C8, as stated, fails: on the array `[1, 2]` the call `find_median` leaves `[2, 1]` in
the caller's buffer (and returns 1), so the contents after the call are not the
contents before it. -/
theorem find_median_reorders_buffer :
    Bytes [1, 2] ∧ find_median [1, 2] 2 = .ok ([2, 1], 1) ∧
    ¬ ∃ m, find_median [1, 2] 2 = .ok ([1, 2], m) := by
  have h : find_median [1, 2] 2 = .ok ([2, 1], 1) := by decide
  refine ⟨by decide, h, ?_⟩
  rintro ⟨m, hm⟩
  rw [h] at hm
  have hfst : ([2, 1] : List Nat) = [1, 2] := congrArg Prod.fst (Except.ok.inj hm)
  exact absurd hfst (by decide)

/-- C8, amended: `find_median` sorts the caller's buffer itself; for every array `S` of
at most `MAX_LEN = 2^30` cells the call returns without fault, the contents of the buffer
after the call are a permutation of the contents before in non-increasing order, and
the buffer is left as it was exactly when `S` was already in non-increasing order. -/
theorem find_median_sorts_buffer (S : List Nat) (hlen : S.length ≤ MAX_LEN) :
    ∃ out m, find_median S S.length = .ok (out, m) ∧ out.Perm S ∧ NonIncreasing out ∧
      (out = S ↔ NonIncreasing S) := by
  obtain ⟨out, hrun, hl, hp, hs⟩ := sort_array_spec S hlen
  have hni : NonIncreasing out := NonIncreasing.of_sortedSeg (by rw [hl]; exact hs)
  have hiff : out = S ↔ NonIncreasing S :=
    ⟨fun h => h ▸ hni, fun h => NonIncreasing.eq_of_perm hni h hp⟩
  by_cases hpos : 0 < S.length
  · exact ⟨out, centralValue out S.length, find_median_of_sort hpos hrun hl, hp, hni, hiff⟩
  · have h0 : S.length = 0 := by omega
    have hS : S = [] := List.length_eq_zero.1 h0
    subst hS
    have hout : out = [] := List.length_eq_zero.1 hl
    subst hout
    exact ⟨[], 0, rfl, hp, hni, hiff⟩

/-- Instance of the amended C8 on the array `[1, 2]`. -/
theorem find_median_sorts_buffer_witness :
    [1, 2].length ≤ MAX_LEN ∧
    ∃ out m, find_median [1, 2] 2 = .ok (out, m) ∧ out.Perm [1, 2] ∧ NonIncreasing out ∧
      (out = [1, 2] ↔ NonIncreasing [1, 2]) :=
  ⟨by decide, find_median_sorts_buffer [1, 2] (by decide)⟩

/-- For every non-empty array `a` of length `n`, the array that `find_median(a, n)`
leaves in its argument is the one that `sort_array(a, n)` produces: the two calls end
in the same way, with the same array. -/
theorem find_median_buffer_eq_sort_array (a : List Nat) (hne : a ≠ []) :
    Except.map Prod.fst (find_median a a.length) = sort_array a a.length := by
  have hpos : 0 < a.length := List.length_pos.2 hne
  cases h : sort_array a a.length with
  | error e => rw [find_median_of_sort_error hpos h]; rfl
  | ok out =>
    rw [find_median_of_sort hpos h (sort_array_perm h).length_eq]; rfl

/-- The previous equation on the array `[34, 201, 190, 154, 8]`. -/
theorem find_median_buffer_eq_sort_array_witness :
    [34, 201, 190, 154, 8] ≠ [] ∧
    Except.map Prod.fst (find_median [34, 201, 190, 154, 8] 5) =
      sort_array [34, 201, 190, 154, 8] 5 :=
  ⟨by decide, find_median_buffer_eq_sort_array [34, 201, 190, 154, 8] (by decide)⟩

/-- On a non-empty array of at most `MAX_LEN` cells, `find_median` returns and leaves in
its argument the array that `sort_array` returns, which is the input rearranged in
non-increasing order. -/
theorem find_median_buffer_sorted (a : List Nat) (hne : a ≠ []) (hlen : a.length ≤ MAX_LEN) :
    ∃ out m, find_median a a.length = .ok (out, m) ∧ sort_array a a.length = .ok out ∧
      out.Perm a ∧ NonIncreasing out := by
  have hpos : 0 < a.length := List.length_pos.2 hne
  obtain ⟨out, hrun, hl, hp, hs⟩ := sort_array_spec a hlen
  exact ⟨out, centralValue out a.length, find_median_of_sort hpos hrun hl, hrun, hp,
    NonIncreasing.of_sortedSeg (by rw [hl]; exact hs)⟩

/-- C9, at an input where it fails: for the array of 2147483649 bytes made of
2147483648 zeros followed by a one, `find_median` returns (the value 0) and leaves in
its argument exactly what `sort_array` leaves there, which is the array as it was; that
array is not the input sorted in descending order, since its last two cells are 0
then 1. -/
theorem find_median_leaves_long_array_unsorted :
    Bytes (List.replicate 2147483648 0 ++ [1]) ∧
    (List.replicate 2147483648 0 ++ [1]).length = 2147483649 ∧
    find_median (List.replicate 2147483648 0 ++ [1]) 2147483649 =
      .ok (List.replicate 2147483648 0 ++ [1], 0) ∧
    sort_array (List.replicate 2147483648 0 ++ [1]) 2147483649 =
      .ok (List.replicate 2147483648 0 ++ [1]) ∧
    ¬ NonIncreasing (List.replicate 2147483648 0 ++ [1]) := by
  have hlen : (List.replicate 2147483648 0 ++ [1]).length = 2147483649 := by
    rw [List.length_append, List.length_replicate]; rfl
  have hsort := sort_array_of_long (List.replicate 2147483648 0 ++ [1]) 2147483649
    (by decide) (by decide)
  refine ⟨?_, hlen, ?_, hsort, not_nonIncreasing_replicate_append _ (by decide)⟩
  · intro x hx
    rcases List.mem_append.1 hx with h | h
    · rw [List.eq_of_mem_replicate h]; decide
    · rw [List.mem_singleton.1 h]; decide
  · rw [find_median_of_sort (by decide) hsort hlen]
    have hodd : (2147483649 &&& 1 ≠ 0) := by decide
    have hv : centralValue (List.replicate 2147483648 0 ++ [1]) 2147483649 = 0 := by
      rw [centralValue, if_pos hodd, show 2147483649 / 2 = 1073741824 by decide,
        cell_append_left (by rw [List.length_replicate]; decide)]
      exact cell_replicate (by decide)
    rw [hv]

/-- C10: for every array `arr` of length `len`, when the allocation succeeds (`malloc`
returns a buffer `buf` of `len` cells), the copy loop of `print_statistics` fills the
buffer with the contents of `arr`; the call ends as the four statistics functions end,
`find_median` being applied to that copy; and whenever it returns, the caller's array
is `arr`, unchanged, and the median printed is the value `find_median` returns on the
contents of `arr`. -/
theorem print_statistics_median_of_copy (arr buf : List Nat) (hbuf : buf.length = arr.length) :
    copy_loop arr arr.length 0 buf = .ok arr ∧
    print_statistics arr arr.length (some buf) =
      (do
        let mn ← find_minimum arr arr.length
        let mx ← find_maximum arr arr.length
        let mean ← find_mean arr arr.length
        let r ← find_median arr arr.length
        pure (arr, statistics_text mn mx mean r.2)) ∧
    ∀ arr' text, print_statistics arr arr.length (some buf) = .ok (arr', text) →
      arr' = arr ∧ ∃ mn mx mean sorted median,
        find_median arr arr.length = .ok (sorted, median) ∧
        text = statistics_text mn mx mean median := by
  have hcopy := copy_loop_eq arr buf hbuf
  have heq : print_statistics arr arr.length (some buf) =
      (do
        let mn ← find_minimum arr arr.length
        let mx ← find_maximum arr arr.length
        let mean ← find_mean arr arr.length
        let r ← find_median arr arr.length
        pure (arr, statistics_text mn mx mean r.2)) := by
    unfold print_statistics
    by_cases hpos : arr.length > 0
    · simp only [hpos, if_true, hcopy, ok_bind]
      cases find_minimum arr arr.length <;> cases find_maximum arr arr.length <;>
        cases find_mean arr arr.length <;> cases find_median arr arr.length <;> rfl
    · have h0 : arr.length = 0 := by omega
      simp only [h0, gt_iff_lt, lt_self_iff_false, if_false]
      rfl
  refine ⟨hcopy, heq, ?_⟩
  intro arr' text h
  rw [heq] at h
  cases h₁ : find_minimum arr arr.length with
  | error e => simp [h₁] at h
  | ok mn =>
    cases h₂ : find_maximum arr arr.length with
    | error e => simp [h₁, h₂] at h
    | ok mx =>
      cases h₃ : find_mean arr arr.length with
      | error e => simp [h₁, h₂, h₃] at h
      | ok mean =>
        cases h₄ : find_median arr arr.length with
        | error e => simp [h₁, h₂, h₃, h₄] at h
        | ok r =>
          simp only [h₁, h₂, h₃, h₄, ok_bind, pure_eq_ok] at h
          have h' := Except.ok.inj h
          exact ⟨(congrArg Prod.fst h').symm, mn, mx, mean, r.1, r.2, rfl,
            (congrArg Prod.snd h').symm⟩

/-- Instance of C10 on the array `[5, 1]` with a fresh buffer `[0, 0]`. -/
theorem print_statistics_median_of_copy_witness :
    [0, 0].length = [5, 1].length ∧
    (copy_loop [5, 1] 2 0 [0, 0] = .ok [5, 1] ∧
    print_statistics [5, 1] 2 (some [0, 0]) =
      (do
        let mn ← find_minimum [5, 1] 2
        let mx ← find_maximum [5, 1] 2
        let mean ← find_mean [5, 1] 2
        let r ← find_median [5, 1] 2
        pure ([5, 1], statistics_text mn mx mean r.2)) ∧
    ∀ arr' text, print_statistics [5, 1] 2 (some [0, 0]) = .ok (arr', text) →
      arr' = [5, 1] ∧ ∃ mn mx mean sorted median,
        find_median [5, 1] 2 = .ok (sorted, median) ∧
        text = statistics_text mn mx mean median) :=
  ⟨by decide, print_statistics_median_of_copy [5, 1] [0, 0] (by decide)⟩

/-! ## The scans on any array indexed by `int` -/

theorem readChecked_natCast {lo hi : Int} {arr : List Nat} {k : Nat} (h₁ : lo ≤ (k : Int))
    (h₂ : (k : Int) ≤ hi) (hk : k < arr.length) :
    readChecked lo hi arr (k : Int) = .ok (cell arr k) := by
  simp [readChecked, h₁, h₂, readAt_natCast, readNat_of_lt hk]

theorem swapChecked_of_lt {lo hi : Int} {a : List Nat} {i j : Nat} (hi' : i < a.length)
    (hj : j < a.length) (h₁ : lo ≤ (i : Int)) (h₂ : (i : Int) ≤ hi) (h₃ : lo ≤ (j : Int))
    (h₄ : (j : Int) ≤ hi) :
    swapChecked lo hi a (i : Int) (j : Int) = .ok ((a.set i (cell a j)).set j (cell a i)) := by
  simp [swapChecked, readChecked_natCast h₁ h₂ hi', readChecked_natCast h₃ h₄ hj]

/-- The upward scan from `i` with a stopping cell `s` at or after `i`: it returns the
first cell at or after `i` that is at most the pivot, which is at or before `s`, and
every index it reads lies between `i` and `s`. -/
theorem scanUpAux_run (arr : List Nat) (pivot : Nat) (lo hi : Int) :
    ∀ (fuel i s : Nat), i ≤ s → s < arr.length → cell arr s ≤ pivot → s ≤ 2147483647 →
      s - i < fuel → lo ≤ (i : Int) → (s : Int) ≤ hi →
      ∃ i' : Nat, scanUpAux fuel arr pivot (i : Int) = .ok (i' : Int) ∧
        scanUpAuxChecked lo hi fuel arr pivot (i : Int) = .ok (i' : Int) ∧ i ≤ i' ∧ i' ≤ s ∧
        cell arr i' ≤ pivot ∧ ∀ k, i ≤ k → k < i' → pivot < cell arr k := by
  intro fuel
  induction fuel with
  | zero => intro i s _ _ _ _ h; omega
  | succ fuel ih =>
    intro i s his hs hstop hmax hfuel hlo hhi
    have hil : i < arr.length := by omega
    have hrd : readChecked lo hi arr (i : Int) = .ok (cell arr i) :=
      readChecked_natCast hlo (by omega) hil
    by_cases hv : pivot < cell arr i
    · have hne : i ≠ s := by rintro rfl; omega
      obtain ⟨i', h1, h1', h2, h3, h4, h5⟩ :=
        ih (i + 1) s (by omega) hs hstop hmax (by omega) (by omega) hhi
      have hov : intResult ((i : Int) + 1) = .ok ((i : Int) + 1) :=
        intResult_of_bounds (by omega) (by omega)
      refine ⟨i', ?_, ?_, by omega, h3, h4, ?_⟩
      · simp only [scanUpAux, readAt_natCast, readNat_of_lt hil, ok_bind, gt_iff_lt, hv,
          if_true, hov]
        exact_mod_cast h1
      · simp only [scanUpAuxChecked, hrd, ok_bind, gt_iff_lt, hv, if_true, hov]
        exact_mod_cast h1'
      · intro k hk1 hk2
        by_cases hk : k = i
        · subst hk; exact hv
        · exact h5 k (by omega) hk2
    · refine ⟨i, ?_, ?_, le_refl _, his, by omega, ?_⟩
      · simp [scanUpAux, readAt_natCast, readNat_of_lt hil, hv]
      · simp [scanUpAuxChecked, hrd, hv]
      · intro k hk1 hk2; omega

/-- The downward scan from `j` with a stopping cell `t` at or before `j`: it returns
the first cell at or before `j` that is at least the pivot, which is at or after `t`,
and every index it reads lies between `t` and `j`. -/
theorem scanDownAux_run (arr : List Nat) (pivot : Nat) (lo hi : Int) :
    ∀ (fuel j t : Nat), t ≤ j → j < arr.length → pivot ≤ cell arr t → j ≤ 2147483647 →
      j - t < fuel → lo ≤ (t : Int) → (j : Int) ≤ hi →
      ∃ j' : Nat, scanDownAux fuel arr pivot (j : Int) = .ok (j' : Int) ∧
        scanDownAuxChecked lo hi fuel arr pivot (j : Int) = .ok (j' : Int) ∧ t ≤ j' ∧ j' ≤ j ∧
        pivot ≤ cell arr j' ∧ ∀ k, j' < k → k ≤ j → cell arr k < pivot := by
  intro fuel
  induction fuel with
  | zero => intro j t _ _ _ _ h; omega
  | succ fuel ih =>
    intro j t htj hj hstop hmax hfuel hlo hhi
    have hrd : readChecked lo hi arr (j : Int) = .ok (cell arr j) :=
      readChecked_natCast (by omega) hhi hj
    by_cases hv : cell arr j < pivot
    · have hne : j ≠ t := by rintro rfl; omega
      obtain ⟨j', h1, h1', h2, h3, h4, h5⟩ :=
        ih (j - 1) t (by omega) (by omega) hstop (by omega) (by omega) hlo (by omega)
      have hov : intResult ((j : Int) - 1) = .ok ((j : Int) - 1) :=
        intResult_of_bounds (by omega) (by omega)
      have hc : ((j : Int) - 1) = ((j - 1 : Nat) : Int) := by omega
      refine ⟨j', ?_, ?_, h2, by omega, h4, ?_⟩
      · simp only [scanDownAux, readAt_natCast, readNat_of_lt hj, ok_bind, hv, if_true, hov]
        rw [hc]; exact h1
      · simp only [scanDownAuxChecked, hrd, ok_bind, hv, if_true, hov]
        rw [hc]; exact h1'
      · intro k hk1 hk2
        by_cases hk : k = j
        · subst hk; exact hv
        · exact h5 k hk1 (by omega)
    · refine ⟨j, ?_, ?_, htj, le_refl _, by omega, ?_⟩
      · simp [scanDownAux, readAt_natCast, readNat_of_lt hj, hv]
      · simp [scanDownAuxChecked, hrd, hv]
      · intro k hk1 hk2; omega

/-! ## The partition loop on any array indexed by `int` -/

theorem partitionLoopAuxChecked_exit (lo hi : Int) (fuel : Nat) (arr : List Nat) (pivot : Nat)
    {i j : Int} (h : ¬ i ≤ j) :
    partitionLoopAuxChecked lo hi fuel arr pivot i j = .ok (arr, i, j) := by
  cases fuel <;> simp [partitionLoopAuxChecked, h]

/-- Invariant of the partition loop on a range `[left, right]` inside the array, for any
`right` that an `int` can hold. While `i ≤ j` there is a cell `s` at or after `i` that
stops the upward scan and a cell `t` at or before `j` that stops the downward scan, and
`s` or `j` is below `right`. The loop then exits without fault, every access it makes
uses an index in `[left, right]` (the checked loop returns the same result), the cursors
are crossed, the cells before `i` are at least the pivot and the cells after `j` at most
the pivot. -/
theorem partitionLoopAux_run (a₀ : List Nat) (pivot : Nat) (left right : Int)
    (hleft : 0 ≤ left) (hright : right < (a₀.length : Int)) (hmax : right ≤ 2147483647) :
    ∀ (fuel : Nat) (arr : List Nat) (i j : Int) (s t : Nat),
      Frame left right a₀ arr →
      left ≤ i → j ≤ right → i ≤ right + 1 → left - 1 ≤ j →
      (∀ k : Nat, left ≤ (k : Int) → (k : Int) < i → pivot ≤ cell arr k) →
      (∀ k : Nat, j < (k : Int) → (k : Int) ≤ right → cell arr k ≤ pivot) →
      (i ≤ j → i ≤ (s : Int) ∧ (s : Int) ≤ right ∧ cell arr s ≤ pivot ∧
        left ≤ (t : Int) ∧ (t : Int) ≤ j ∧ pivot ≤ cell arr t ∧
        ((s : Int) < right ∨ j < right)) →
      j - i + 1 ≤ (fuel : Int) →
      ∃ arr' i' j', partitionLoopAux fuel arr pivot i j = .ok (arr', i', j') ∧
        partitionLoopAuxChecked left right fuel arr pivot i j = .ok (arr', i', j') ∧
        Frame left right a₀ arr' ∧ j' < i' ∧ i ≤ i' ∧ j' ≤ j ∧ i' ≤ right + 1 ∧
        left - 1 ≤ j' ∧
        (∀ k : Nat, left ≤ (k : Int) → (k : Int) < i' → pivot ≤ cell arr' k) ∧
        (∀ k : Nat, j' < (k : Int) → (k : Int) ≤ right → cell arr' k ≤ pivot) ∧
        (i ≤ j → (s : Int) ≤ t → i < i' ∧ j' < j) := by
  intro fuel
  induction fuel with
  | zero =>
    intro arr i j s t hF hli hjr hir hlj hge hle _ hfuel
    have hij : ¬ i ≤ j := by omega
    exact ⟨arr, i, j, partitionLoopAux_exit 0 arr pivot hij,
      partitionLoopAuxChecked_exit left right 0 arr pivot hij, hF, by omega, le_refl _,
      le_refl _, hir, hlj, hge, hle, fun h => absurd h hij⟩
  | succ fuel ih =>
    intro arr i j s t hF hli hjr hir hlj hge hle hstop hfuel
    by_cases hij : i ≤ j
    · obtain ⟨hs₁, hs₂, hs₃, ht₁, ht₂, ht₃, hroom⟩ := hstop hij
      have hlenarr : arr.length = a₀.length := hF.1
      lift i to ℕ using (by omega)
      lift j to ℕ using (by omega)
      obtain ⟨i₁, hu₁, hu₁', hu₂, hu₃, hu₄, hu₅⟩ := scanUpAux_run arr pivot left right
        (arr.length + 1) i s (by omega) (by omega) hs₃ (by omega) (by omega) hli hs₂
      obtain ⟨j₁, hd₁, hd₁', hd₂, hd₃, hd₄, hd₅⟩ := scanDownAux_run arr pivot left right
        (arr.length + 1) j t (by omega) (by omega) ht₃ (by omega) (by omega) ht₁ hjr
      by_cases h₁₂ : i₁ ≤ j₁
      · have h₁₂' : (i₁ : Int) ≤ (j₁ : Int) := by exact_mod_cast h₁₂
        have hi₁ : i₁ < arr.length := by omega
        have hj₁ : j₁ < arr.length := by omega
        have hov₁ : intResult ((i₁ : Int) + 1) = .ok ((i₁ : Int) + 1) :=
          intResult_of_bounds (by omega) (by omega)
        have hov₂ : intResult ((j₁ : Int) - 1) = .ok ((j₁ : Int) - 1) :=
          intResult_of_bounds (by omega) (by omega)
        have hFs : Frame left right a₀ ((arr.set i₁ (cell arr j₁)).set j₁ (cell arr i₁)) :=
          hF.trans (Frame.swap_cells arr hi₁ hj₁ (by omega) (by omega) (by omega) (by omega))
        have hsw : swapChecked left right arr (i₁ : Int) (j₁ : Int) =
            .ok ((arr.set i₁ (cell arr j₁)).set j₁ (cell arr i₁)) :=
          swapChecked_of_lt hi₁ hj₁ (by omega) (by omega) (by omega) (by omega)
        have hcell : ∀ k : Nat, cell ((arr.set i₁ (cell arr j₁)).set j₁ (cell arr i₁)) k =
            if k = j₁ then cell arr i₁ else if k = i₁ then cell arr j₁ else cell arr k := by
          intro k
          rw [cell_set, cell_set]
          by_cases hk₁ : j₁ = k
          · subst hk₁; simp [hj₁]
          · by_cases hk₂ : i₁ = k
            · subst hk₂; simp [hk₁, hi₁, Ne.symm hk₁]
            · simp [hk₁, hk₂, Ne.symm hk₁, Ne.symm hk₂]
        obtain ⟨arr', i', j', hrun, hrun', hF', h₁, h₂, h₃, h₄, h₅, h₆, h₇, _⟩ :=
          ih ((arr.set i₁ (cell arr j₁)).set j₁ (cell arr i₁)) ((i₁ : Int) + 1) ((j₁ : Int) - 1)
            j₁ i₁ hFs (by omega) (by omega) (by omega) (by omega)
            (by
              intro k hk₁ hk₂
              rw [hcell k]
              by_cases hkj : k = j₁
              · have : i₁ = j₁ := by omega
                rw [if_pos hkj, this]; exact hd₄
              · by_cases hki : k = i₁
                · rw [if_neg hkj, if_pos hki]; exact hd₄
                · rw [if_neg hkj, if_neg hki]
                  by_cases hk : (k : Int) < (i : Int)
                  · exact hge k hk₁ hk
                  · exact le_of_lt (hu₅ k (by omega) (by omega)))
            (by
              intro k hk₁ hk₂
              rw [hcell k]
              by_cases hkj : k = j₁
              · rw [if_pos hkj]; exact hu₄
              · by_cases hki : k = i₁
                · omega
                · rw [if_neg hkj, if_neg hki]
                  by_cases hk : (j : Int) < (k : Int)
                  · exact hle k hk hk₂
                  · exact le_of_lt (hd₅ k (by omega) (by omega)))
            (by
              intro hlt
              have hne : i₁ ≠ j₁ := by omega
              refine ⟨by omega, by omega, ?_, by omega, by omega, ?_, Or.inr (by omega)⟩
              · rw [hcell j₁, if_pos rfl]; exact hu₄
              · rw [hcell i₁, if_neg hne, if_pos rfl]; exact hd₄)
            (by omega)
        refine ⟨arr', i', j', ?_, ?_, hF', h₁, by omega, by omega, h₄, h₅, h₆, h₇,
          fun _ _ => ⟨by omega, by omega⟩⟩
        · simp only [partitionLoopAux, hij, if_true, scanUp, hu₁, scanDown, hd₁, ok_bind, h₁₂',
            swap_of_lt hi₁ hj₁, hov₁, hov₂]
          exact hrun
        · simp only [partitionLoopAuxChecked, hij, if_true, scanUpChecked, hu₁',
            scanDownChecked, hd₁', ok_bind, h₁₂', hsw, hov₁, hov₂]
          exact hrun'
      · have h₁₂' : ¬ (i₁ : Int) ≤ (j₁ : Int) := by exact_mod_cast h₁₂
        refine ⟨arr, i₁, j₁, ?_, ?_, hF, by omega, by omega, by omega, by omega, by omega,
          ?_, ?_, fun _ hst => by omega⟩
        · simp only [partitionLoopAux, hij, if_true, scanUp, hu₁, scanDown, hd₁, ok_bind, h₁₂',
            if_false]
          exact partitionLoopAux_exit fuel arr pivot h₁₂'
        · simp only [partitionLoopAuxChecked, hij, if_true, scanUpChecked, hu₁',
            scanDownChecked, hd₁', ok_bind, h₁₂', if_false]
          exact partitionLoopAuxChecked_exit left right fuel arr pivot h₁₂'
        · intro k hk₁ hk₂
          by_cases hk : (k : Int) < (i : Int)
          · exact hge k hk₁ hk
          · exact le_of_lt (hu₅ k (by omega) (by omega))
        · intro k hk₁ hk₂
          by_cases hk : (j : Int) < (k : Int)
          · exact hle k hk hk₂
          · exact le_of_lt (hd₅ k (by omega) (by omega))
    · exact ⟨arr, i, j, partitionLoopAux_exit _ arr pivot hij,
        partitionLoopAuxChecked_exit left right _ arr pivot hij, hF, by omega, le_refl _,
        le_refl _, hir, hlj, hge, hle, fun h => absurd h hij⟩

/-- One partition of a range `[left, right]` inside the array, around the value of the
cell at `(left + right) / 2`. -/
theorem partitionLoop_run (arr : List Nat) (left right : Nat) (hlt : left < right)
    (hright : right < arr.length) (hmax : right ≤ 2147483647) :
    ∃ arr' i' j',
      partitionLoop arr (cell arr ((left + right) / 2)) left right = .ok (arr', i', j') ∧
      partitionLoopChecked (left : Int) (right : Int) arr (cell arr ((left + right) / 2))
        left right = .ok (arr', i', j') ∧
      Frame left right arr arr' ∧ j' < i' ∧ (left : Int) < i' ∧ j' < (right : Int) ∧
      i' ≤ (right : Int) + 1 ∧ (left : Int) - 1 ≤ j' ∧
      (∀ k : Nat, (left : Int) ≤ (k : Int) → (k : Int) < i' →
        cell arr ((left + right) / 2) ≤ cell arr' k) ∧
      (∀ k : Nat, j' < (k : Int) → (k : Int) ≤ right →
        cell arr' k ≤ cell arr ((left + right) / 2)) := by
  obtain ⟨arr', i', j', h₁, h₁', hF, h₂, _, _, h₅, h₆, h₇, h₈, h₉⟩ :=
    partitionLoopAux_run arr (cell arr ((left + right) / 2)) left right (by omega)
      (by omega) (by omega) ((right : Int) - (left : Int) + 1).toNat arr left right
      ((left + right) / 2) ((left + right) / 2) (Frame.refl _ _ _) (le_refl _) (le_refl _)
      (by omega) (by omega) (fun k h₁ h₂ => by omega) (fun k h₁ h₂ => by omega)
      (fun _ => ⟨by omega, by omega, le_refl _, by omega, by omega, le_refl _,
        Or.inl (by omega)⟩) (by omega)
  obtain ⟨hp₁, hp₂⟩ := h₉ (by omega) (le_refl _)
  exact ⟨arr', i', j', h₁, h₁', hF, h₂, hp₁, hp₂, h₅, h₆, h₇, h₈⟩

theorem quicksort_descAuxChecked_skip (fuel : Nat) (arr : List Nat) {left right : Int}
    (h : left ≥ right) : quicksort_descAuxChecked fuel arr left right = .ok arr := by
  cases fuel <;> simp [quicksort_descAuxChecked, h]

theorem midpoint_tdiv (left right : Nat) :
    ((left : Int) + (right : Int)).tdiv 2 = (((left + right) / 2 : Nat) : Int) := by
  rw [Int.tdiv_eq_ediv (by omega) (by omega)]; omega

/-- On a range `[left, right]` inside the array with `right ≤ 2^30`, whatever the length
of the array, `quicksort_desc` with a recursion budget of `right - left` returns
without fault, and so does the monitored `quicksort_desc`, with the same array: no call
leaves the array and no access leaves the range of its call. The cells of the range
are permuted into descending order and the other cells are left alone. -/
theorem quicksort_descAux_run :
    ∀ (fuel : Nat) (arr : List Nat) (left right : Int),
      0 ≤ left → right < (arr.length : Int) → right ≤ 1073741824 → right - left ≤ (fuel : Int) →
      ∃ arr', quicksort_descAux fuel arr left right = .ok arr' ∧
        quicksort_descAuxChecked fuel arr left right = .ok arr' ∧
        Frame left right arr arr' ∧ SortedSeg left right arr' := by
  intro fuel
  induction fuel with
  | zero =>
    intro arr left right _ _ _ hfuel
    have h : left ≥ right := by omega
    exact ⟨arr, quicksort_descAux_skip 0 arr h, quicksort_descAuxChecked_skip 0 arr h,
      Frame.refl _ _ _, SortedSeg.of_ge arr h⟩
  | succ fuel ih =>
    intro arr left right hleft hright hmax hfuel
    by_cases h : left ≥ right
    · exact ⟨arr, quicksort_descAux_skip _ arr h, quicksort_descAuxChecked_skip _ arr h,
        Frame.refl _ _ _, SortedSeg.of_ge arr h⟩
    · lift left to ℕ using hleft
      lift right to ℕ using (by omega)
      have hsum : intResult ((left : Int) + (right : Int)) = .ok ((left : Int) + (right : Int)) :=
        intResult_of_bounds (by omega) (by omega)
      have hmlt : (left + right) / 2 < arr.length := by omega
      have hrange : (0 : Int) ≤ (left : Int) ∧ (right : Int) < (arr.length : Int) :=
        ⟨by omega, hright⟩
      obtain ⟨arr₁, i', j', hrun₁, hrun₁', hF₁, hc₁, hp₁, hp₂, hc₄, hc₅, hge, hle⟩ :=
        partitionLoop_run arr left right (by omega) (by omega) (by omega)
      have hlen₁ : arr₁.length = arr.length := hF₁.1
      obtain ⟨arr₂, hrun₂, hrun₂', hF₂, hS₂⟩ :=
        ih arr₁ left j' (by omega) (by omega) (by omega) (by omega)
      have hlen₂ : arr₂.length = arr₁.length := hF₂.1
      obtain ⟨arr₃, hrun₃, hrun₃', hF₃, hS₃⟩ :=
        ih arr₂ i' right (by omega) (by omega) (by omega) (by omega)
      have e₂ : ¬ (left : Int) < j' → arr₁ = arr₂ := by
        intro hc
        rw [quicksort_descAux_skip fuel arr₁ (by omega)] at hrun₂
        exact Except.ok.inj hrun₂
      have e₃ : ¬ i' < (right : Int) → arr₂ = arr₃ := by
        intro hc
        rw [quicksort_descAux_skip fuel arr₂ (by omega)] at hrun₃
        exact Except.ok.inj hrun₃
      refine ⟨arr₃, ?_, ?_, ?_, ?_⟩
      · simp only [quicksort_descAux, h, if_false, hsum, ok_bind, midpoint_tdiv, readAt_natCast,
          readNat_of_lt hmlt, hrun₁]
        by_cases hc₂ : (left : Int) < j'
        · by_cases hc₃ : i' < (right : Int)
          · simp only [hc₂, hc₃, if_true, hrun₂, ok_bind, hrun₃]
          · simp only [hc₂, hc₃, if_true, if_false, hrun₂, ok_bind, pure_eq_ok, e₃ hc₃]
        · by_cases hc₃ : i' < (right : Int)
          · simp only [hc₂, hc₃, if_true, if_false, pure_eq_ok, ok_bind, e₂ hc₂, hrun₃]
          · simp only [hc₂, hc₃, if_false, pure_eq_ok, ok_bind, e₂ hc₂, e₃ hc₃]
      · simp only [quicksort_descAuxChecked, h, if_false, hrange, and_self, if_true, hsum,
          ok_bind, midpoint_tdiv,
          readChecked_natCast (show (left : Int) ≤ ((left + right) / 2 : Nat) by omega)
            (show (((left + right) / 2 : Nat) : Int) ≤ (right : Int) by omega) hmlt, hrun₁']
        by_cases hc₂ : (left : Int) < j'
        · by_cases hc₃ : i' < (right : Int)
          · simp only [hc₂, hc₃, if_true, hrun₂', ok_bind, hrun₃']
          · simp only [hc₂, hc₃, if_true, if_false, hrun₂', ok_bind, pure_eq_ok, e₃ hc₃]
        · by_cases hc₃ : i' < (right : Int)
          · simp only [hc₂, hc₃, if_true, if_false, pure_eq_ok, ok_bind, e₂ hc₂, hrun₃']
          · simp only [hc₂, hc₃, if_false, pure_eq_ok, ok_bind, e₂ hc₂, e₃ hc₃]
      · exact hF₁.trans ((hF₂.mono (le_refl _) (by omega)).trans (hF₃.mono (by omega) (le_refl _)))
      · have hA : ∀ k : Nat, (left : Int) ≤ k → (k : Int) ≤ j' →
            cell arr ((left + right) / 2) ≤ cell arr₃ k := by
          intro k h₁ h₂
          rw [hF₃.2.2 k (Or.inl (by omega))]
          obtain ⟨k', hk₁, hk₂, _, hk₄⟩ := hF₂.cell_inside h₁ h₂ (by omega)
          rw [hk₄]
          exact hge k' hk₁ (by omega)
        have hM : ∀ k : Nat, j' < (k : Int) → (k : Int) < i' →
            cell arr₃ k = cell arr ((left + right) / 2) := by
          intro k h₁ h₂
          rw [hF₃.2.2 k (Or.inl h₂), hF₂.2.2 k (Or.inr h₁)]
          exact le_antisymm (hle k h₁ (by omega)) (hge k (by omega) h₂)
        have hB : ∀ k : Nat, i' ≤ (k : Int) → (k : Int) ≤ right →
            cell arr₃ k ≤ cell arr ((left + right) / 2) := by
          intro k h₁ h₂
          obtain ⟨k', hk₁, hk₂, _, hk₄⟩ := hF₃.cell_inside h₁ h₂ (by omega)
          rw [hk₄, hF₂.2.2 k' (Or.inr (by omega))]
          exact hle k' (by omega) hk₂
        intro k₁ k₂ h₁ h₂ h₃
        by_cases hc₂ : (k₂ : Int) ≤ j'
        · rw [hF₃.2.2 k₁ (Or.inl (by omega)), hF₃.2.2 k₂ (Or.inl (by omega))]
          exact hS₂ k₁ k₂ h₁ h₂ hc₂
        · by_cases hc₃ : i' ≤ (k₁ : Int)
          · exact hS₃ k₁ k₂ hc₃ h₂ h₃
          · have hlo : cell arr₃ k₂ ≤ cell arr ((left + right) / 2) := by
              by_cases hk : (k₂ : Int) < i'
              · exact le_of_eq (hM k₂ (by omega) hk)
              · exact hB k₂ (by omega) h₃
            have hhi : cell arr ((left + right) / 2) ≤ cell arr₃ k₁ := by
              by_cases hk : j' < (k₁ : Int)
              · exact le_of_eq (hM k₁ hk (by omega)).symm
              · exact hA k₁ h₁ (by omega)
            exact le_trans hlo hhi

/-! ## The iteration budgets are never exhausted -/

theorem bind_ne_outOfFuel {α β : Type} {x : Except Fault α} {f : α → Except Fault β}
    (hx : x ≠ .error .outOfFuel) (hf : ∀ a, x = .ok a → f a ≠ .error .outOfFuel) :
    (x >>= f) ≠ .error .outOfFuel := by
  cases x with
  | error e =>
    intro h
    rw [error_bind] at h
    have he : e = Fault.outOfFuel := Except.error.inj h
    exact hx (by rw [he])
  | ok a => exact hf a rfl

theorem bind_eq_ok {α β : Type} {x : Except Fault α} {f : α → Except Fault β} {b : β}
    (h : (x >>= f) = .ok b) : ∃ a, x = .ok a ∧ f a = .ok b := by
  cases x with
  | error e => cases h
  | ok a => exact ⟨a, rfl, h⟩

theorem readAt_ne_outOfFuel (arr : List Nat) (i : Int) : readAt arr i ≠ .error .outOfFuel := by
  unfold readAt
  split
  · intro h; cases h
  · split <;> intro h <;> cases h

theorem readAt_eq_ok {arr : List Nat} {i : Int} {v : Nat} (h : readAt arr i = .ok v) :
    0 ≤ i ∧ i.toNat < arr.length ∧ cell arr i.toNat = v := by
  unfold readAt at h
  by_cases hi : i < 0
  · simp [hi] at h
  · simp only [hi, if_false] at h
    cases hv : arr[i.toNat]? with
    | none => simp [hv] at h
    | some w =>
      simp only [hv] at h
      have hw : w = v := Except.ok.inj h
      exact ⟨by omega, (List.getElem?_eq_some.1 hv).1, by simp [cell, hv, hw]⟩

theorem intResult_ne_outOfFuel (v : Int) : intResult v ≠ .error .outOfFuel := by
  unfold intResult
  split <;> intro h <;> cases h

theorem intResult_eq_ok {v w : Int} (h : intResult v = .ok w) :
    w = v ∧ -2147483648 ≤ v ∧ v ≤ 2147483647 := by
  unfold intResult at h
  by_cases hb : INT_MIN ≤ v ∧ v ≤ INT_MAX
  · simp only [hb, and_self, if_true] at h
    simp only [INT_MIN, INT_MAX] at hb
    exact ⟨(Except.ok.inj h).symm, hb.1, hb.2⟩
  · simp [hb] at h

theorem swap_ne_outOfFuel (arr : List Nat) (a b : Int) : swap arr a b ≠ .error .outOfFuel := by
  unfold swap
  refine bind_ne_outOfFuel (readAt_ne_outOfFuel _ _) (fun t _ => ?_)
  refine bind_ne_outOfFuel (readAt_ne_outOfFuel _ _) (fun vb _ => ?_)
  intro h; cases h

theorem scanUpAux_ne_outOfFuel (arr : List Nat) (pivot : Nat) :
    ∀ (fuel : Nat) (i : Int), 1 ≤ fuel → (arr.length : Int) - i < (fuel : Int) →
      scanUpAux fuel arr pivot i ≠ .error .outOfFuel := by
  intro fuel
  induction fuel with
  | zero => intro i h; omega
  | succ fuel ih =>
    intro i _ hfuel
    unfold scanUpAux
    refine bind_ne_outOfFuel (readAt_ne_outOfFuel _ _) (fun v hv => ?_)
    obtain ⟨h₀, h₁, _⟩ := readAt_eq_ok hv
    split
    · refine bind_ne_outOfFuel (intResult_ne_outOfFuel _) (fun i' hi' => ?_)
      obtain ⟨rfl, _, _⟩ := intResult_eq_ok hi'
      exact ih (i + 1) (by omega) (by omega)
    · intro h; cases h

theorem scanDownAux_ne_outOfFuel (arr : List Nat) (pivot : Nat) :
    ∀ (fuel : Nat) (j : Int), 1 ≤ fuel → (j < (arr.length : Int) → j + 1 < (fuel : Int)) →
      scanDownAux fuel arr pivot j ≠ .error .outOfFuel := by
  intro fuel
  induction fuel with
  | zero => intro j h; omega
  | succ fuel ih =>
    intro j _ hfuel
    unfold scanDownAux
    refine bind_ne_outOfFuel (readAt_ne_outOfFuel _ _) (fun v hv => ?_)
    obtain ⟨h₀, h₁, _⟩ := readAt_eq_ok hv
    have := hfuel (by omega)
    split
    · refine bind_ne_outOfFuel (intResult_ne_outOfFuel _) (fun j' hj' => ?_)
      obtain ⟨rfl, _, _⟩ := intResult_eq_ok hj'
      exact ih (j - 1) (by omega) (fun _ => by omega)
    · intro h; cases h

theorem scanUp_ne_outOfFuel (arr : List Nat) (pivot : Nat) (i : Int) :
    scanUp arr pivot i ≠ .error .outOfFuel := by
  by_cases hi : 0 ≤ i
  · exact scanUpAux_ne_outOfFuel arr pivot _ i (by omega) (by push_cast; omega)
  · unfold scanUp scanUpAux
    have : readAt arr i = .error .outOfBounds := by simp [readAt, show i < 0 by omega]
    rw [this]
    intro h; cases h

theorem scanDown_ne_outOfFuel (arr : List Nat) (pivot : Nat) (j : Int) :
    scanDown arr pivot j ≠ .error .outOfFuel :=
  scanDownAux_ne_outOfFuel arr pivot _ j (by omega) (fun _ => by push_cast; omega)

/-- A completed upward scan ends at or after its start, and at or before any cell that
stops it. -/
theorem scanUpAux_eq_ok (arr : List Nat) (pivot : Nat) :
    ∀ (fuel : Nat) (i i' : Int), scanUpAux fuel arr pivot i = .ok i' →
      i ≤ i' ∧ ∀ (s : Int) (v : Nat), i ≤ s → readAt arr s = .ok v → v ≤ pivot → i' ≤ s := by
  intro fuel
  induction fuel with
  | zero => intro i i' h; cases h
  | succ fuel ih =>
    intro i i' h
    unfold scanUpAux at h
    obtain ⟨w, hw, h⟩ := bind_eq_ok h
    by_cases hc : w > pivot
    · rw [if_pos hc] at h
      obtain ⟨i₁, hi₁, h⟩ := bind_eq_ok h
      obtain ⟨rfl, _, _⟩ := intResult_eq_ok hi₁
      obtain ⟨h₁, h₂⟩ := ih (i + 1) i' h
      refine ⟨by omega, fun s v hs hv hle => ?_⟩
      have hne : i ≠ s := by
        rintro rfl
        rw [hw] at hv
        have := Except.ok.inj hv
        omega
      exact h₂ s v (by omega) hv hle
    · rw [if_neg hc] at h
      have hi : i = i' := Except.ok.inj h
      subst hi
      exact ⟨le_refl _, fun s v hs _ _ => hs⟩

/-- A completed downward scan ends at or before its start, and at or after any cell
that stops it. -/
theorem scanDownAux_eq_ok (arr : List Nat) (pivot : Nat) :
    ∀ (fuel : Nat) (j j' : Int), scanDownAux fuel arr pivot j = .ok j' →
      j' ≤ j ∧ ∀ (t : Int) (v : Nat), t ≤ j → readAt arr t = .ok v → pivot ≤ v → t ≤ j' := by
  intro fuel
  induction fuel with
  | zero => intro j j' h; cases h
  | succ fuel ih =>
    intro j j' h
    unfold scanDownAux at h
    obtain ⟨w, hw, h⟩ := bind_eq_ok h
    by_cases hc : w < pivot
    · rw [if_pos hc] at h
      obtain ⟨j₁, hj₁, h⟩ := bind_eq_ok h
      obtain ⟨rfl, _, _⟩ := intResult_eq_ok hj₁
      obtain ⟨h₁, h₂⟩ := ih (j - 1) j' h
      refine ⟨by omega, fun t v ht hv hle => ?_⟩
      have hne : j ≠ t := by
        rintro rfl
        rw [hw] at hv
        have := Except.ok.inj hv
        omega
      exact h₂ t v (by omega) hv hle
    · rw [if_neg hc] at h
      have hj : j = j' := Except.ok.inj h
      subst hj
      exact ⟨le_refl _, fun t v ht _ _ => ht⟩

/-- A completed partition loop has moved `i` up and `j` down only. -/
theorem partitionLoopAux_eq_ok (pivot : Nat) :
    ∀ (fuel : Nat) (arr : List Nat) (i j : Int) (out : List Nat × Int × Int),
      partitionLoopAux fuel arr pivot i j = .ok out → i ≤ out.2.1 ∧ out.2.2 ≤ j := by
  intro fuel
  induction fuel with
  | zero =>
    intro arr i j out h
    by_cases hij : i ≤ j
    · simp [partitionLoopAux, hij] at h
    · rw [partitionLoopAux_exit 0 arr pivot hij] at h
      rw [← Except.ok.inj h]
      exact ⟨le_refl _, le_refl _⟩
  | succ fuel ih =>
    intro arr i j out h
    by_cases hij : i ≤ j
    · simp only [partitionLoopAux, hij, if_true] at h
      obtain ⟨i₁, hu, h⟩ := bind_eq_ok h
      obtain ⟨j₁, hd, h⟩ := bind_eq_ok h
      have hu' := (scanUpAux_eq_ok arr pivot _ i i₁ hu).1
      have hd' := (scanDownAux_eq_ok arr pivot _ j j₁ hd).1
      by_cases h₁₂ : i₁ ≤ j₁
      · rw [if_pos h₁₂] at h
        obtain ⟨arr₁, _, h⟩ := bind_eq_ok h
        obtain ⟨i₂, hi₂, h⟩ := bind_eq_ok h
        obtain ⟨j₂, hj₂, h⟩ := bind_eq_ok h
        obtain ⟨rfl, _, _⟩ := intResult_eq_ok hi₂
        obtain ⟨rfl, _, _⟩ := intResult_eq_ok hj₂
        have := ih arr₁ _ _ out h
        omega
      · rw [if_neg h₁₂] at h
        have := ih arr i₁ j₁ out h
        omega
    · rw [partitionLoopAux_exit _ arr pivot hij] at h
      rw [← Except.ok.inj h]
      exact ⟨le_refl _, le_refl _⟩

theorem partitionLoopAux_ne_outOfFuel (pivot : Nat) :
    ∀ (fuel : Nat) (arr : List Nat) (i j : Int), j - i + 1 ≤ (fuel : Int) →
      partitionLoopAux fuel arr pivot i j ≠ .error .outOfFuel := by
  intro fuel
  induction fuel with
  | zero =>
    intro arr i j hfuel
    rw [partitionLoopAux_exit 0 arr pivot (by omega)]
    intro h; cases h
  | succ fuel ih =>
    intro arr i j hfuel
    by_cases hij : i ≤ j
    · simp only [partitionLoopAux, hij, if_true]
      refine bind_ne_outOfFuel (scanUp_ne_outOfFuel _ _ _) (fun i₁ hu => ?_)
      refine bind_ne_outOfFuel (scanDown_ne_outOfFuel _ _ _) (fun j₁ hd => ?_)
      have hu' := (scanUpAux_eq_ok arr pivot _ i i₁ hu).1
      have hd' := (scanDownAux_eq_ok arr pivot _ j j₁ hd).1
      by_cases h₁₂ : i₁ ≤ j₁
      · rw [if_pos h₁₂]
        refine bind_ne_outOfFuel (swap_ne_outOfFuel _ _ _) (fun arr₁ _ => ?_)
        refine bind_ne_outOfFuel (intResult_ne_outOfFuel _) (fun i₂ hi₂ => ?_)
        refine bind_ne_outOfFuel (intResult_ne_outOfFuel _) (fun j₂ hj₂ => ?_)
        obtain ⟨rfl, _, _⟩ := intResult_eq_ok hi₂
        obtain ⟨rfl, _, _⟩ := intResult_eq_ok hj₂
        exact ih arr₁ _ _ (by omega)
      · rw [if_neg h₁₂, partitionLoopAux_exit _ arr pivot h₁₂]
        intro h; cases h
    · rw [partitionLoopAux_exit _ arr pivot hij]
      intro h; cases h

/-- A completed partition of `[left, right]` around the value read at the midpoint has
exchanged at least once: `i` ends above `left` and `j` below `right`. -/
theorem partitionLoopAux_progress {fuel : Nat} {arr : List Nat} {pivot : Nat}
    {left right s : Int} {out : List Nat × Int × Int} (hlt : left < right)
    (hs : intResult (left + right) = .ok s) (hp : readAt arr (s.tdiv 2) = .ok pivot)
    (h : partitionLoopAux fuel arr pivot left right = .ok out) :
    left < out.2.1 ∧ out.2.2 < right := by
  have hij : left ≤ right := by omega
  cases fuel with
  | zero => simp [partitionLoopAux, hij] at h
  | succ fuel =>
    simp only [partitionLoopAux, hij, if_true] at h
    obtain ⟨i₁, hu, h⟩ := bind_eq_ok h
    obtain ⟨j₁, hd, h⟩ := bind_eq_ok h
    obtain ⟨rfl, _, _⟩ := intResult_eq_ok hs
    -- the upward scan has read `arr[left]`, so `left` is not negative
    have hleft : 0 ≤ left := by
      unfold scanUp scanUpAux at hu
      obtain ⟨w, hw, _⟩ := bind_eq_ok hu
      exact (readAt_eq_ok hw).1
    have hmid : (left + right).tdiv 2 = (left + right) / 2 :=
      Int.tdiv_eq_ediv (by omega) (by omega)
    rw [hmid] at hp
    obtain ⟨hu₁, hu₂⟩ := scanUpAux_eq_ok arr pivot _ left i₁ hu
    obtain ⟨hd₁, hd₂⟩ := scanDownAux_eq_ok arr pivot _ right j₁ hd
    have hu₃ := hu₂ _ pivot (by omega) hp (le_refl _)
    have hd₃ := hd₂ _ pivot (by omega) hp (le_refl _)
    have h₁₂ : i₁ ≤ j₁ := by omega
    rw [if_pos h₁₂] at h
    obtain ⟨arr₁, _, h⟩ := bind_eq_ok h
    obtain ⟨i₂, hi₂, h⟩ := bind_eq_ok h
    obtain ⟨j₂, hj₂, h⟩ := bind_eq_ok h
    obtain ⟨rfl, _, _⟩ := intResult_eq_ok hi₂
    obtain ⟨rfl, _, _⟩ := intResult_eq_ok hj₂
    have := partitionLoopAux_eq_ok pivot fuel arr₁ _ _ out h
    omega

/-- Whatever the array and the bounds, a recursion budget of `right - left` is never
exhausted by `quicksort_desc`. -/
theorem quicksort_descAux_ne_outOfFuel :
    ∀ (fuel : Nat) (arr : List Nat) (left right : Int), right - left ≤ (fuel : Int) →
      quicksort_descAux fuel arr left right ≠ .error .outOfFuel := by
  intro fuel
  induction fuel with
  | zero =>
    intro arr left right hfuel
    rw [quicksort_descAux_skip 0 arr (by omega)]
    intro h; cases h
  | succ fuel ih =>
    intro arr left right hfuel
    by_cases hlr : left ≥ right
    · rw [quicksort_descAux_skip _ arr hlr]
      intro h; cases h
    · simp only [quicksort_descAux, hlr, if_false]
      refine bind_ne_outOfFuel (intResult_ne_outOfFuel _) (fun s hs => ?_)
      refine bind_ne_outOfFuel (readAt_ne_outOfFuel _ _) (fun pivot hp => ?_)
      refine bind_ne_outOfFuel
        (partitionLoopAux_ne_outOfFuel pivot _ arr left right (by omega)) (fun out hout => ?_)
      obtain ⟨h₁, h₂⟩ := partitionLoopAux_progress (by omega) hs hp hout
      obtain ⟨arr₁, i', j'⟩ := out
      simp only at h₁ h₂ ⊢
      have key : ∀ (a : List Nat),
          (if i' < right then quicksort_descAux fuel a i' right else pure a) ≠
            .error .outOfFuel := by
        intro a
        by_cases hc : i' < right
        · rw [if_pos hc]; exact ih a i' right (by omega)
        · rw [if_neg hc]; intro h; cases h
      by_cases hc : left < j'
      · rw [if_pos hc]
        exact bind_ne_outOfFuel (ih arr₁ left j' (by omega)) (fun arr₂ _ => key arr₂)
      · rw [if_neg hc]
        exact key arr₁

theorem sort_array_ne_outOfFuel (arr : List Nat) (len : Nat) :
    sort_array arr len ≠ .error .outOfFuel := by
  unfold sort_array
  split
  · intro h; cases h
  · refine bind_ne_outOfFuel (intResult_ne_outOfFuel _) (fun r _ => ?_)
    exact quicksort_descAux_ne_outOfFuel _ arr 0 r (by omega)

/-! ## A sorted array on which the midpoint overflows -/

theorem set_set_of_cell_eq {arr : List Nat} {i j : Nat} (h : cell arr i = cell arr j) :
    (arr.set i (cell arr j)).set j (cell arr i) = arr := by
  apply list_ext_cell (by simp)
  intro k _
  rw [cell_set, cell_set]
  by_cases hj : j = k
  · subst hj
    by_cases hjl : j < (arr.set i (cell arr j)).length
    · rw [if_pos ⟨rfl, hjl⟩]; exact h
    · rw [if_neg (fun hc => hjl hc.2)]
      by_cases hi : i = j
      · subst hi
        by_cases hil : i < arr.length
        · rw [if_pos ⟨rfl, hil⟩]
        · rw [if_neg (fun hc => hil hc.2)]
      · rw [if_neg (fun hc => hi hc.1)]
  · rw [if_neg (fun hc => hj hc.1)]
    by_cases hi : i = k
    · subst hi
      by_cases hil : i < arr.length
      · rw [if_pos ⟨rfl, hil⟩]; exact h.symm
      · rw [if_neg (fun hc => hil hc.2)]
    · rw [if_neg (fun hc => hi hc.1)]

/-- A run on a range whose cells all hold the same value leaves the array as it is. -/
theorem Frame.eq_of_const {l r : Int} {a b : List Nat} {v : Nat} (h : Frame l r a b)
    (hv : ∀ k : Nat, l ≤ (k : Int) → (k : Int) ≤ r → k < a.length → cell a k = v) : b = a := by
  apply list_ext_cell h.1
  intro k hk
  by_cases hin : l ≤ (k : Int) ∧ (k : Int) ≤ r
  · obtain ⟨k', h₁, h₂, h₃, h₄⟩ := h.cell_inside hin.1 hin.2 (by rw [← h.1]; exact hk)
    rw [h₄, hv k' h₁ h₂ h₃, hv k hin.1 hin.2 (by rw [← h.1]; exact hk)]
  · exact h.2.2 k (by omega)

/-- The partition loop between cursors `i ≤ j` when every cell from `i` to `j` holds
the pivot: each pass exchanges the two cells under the cursors and moves both cursors
by one, so the array is unchanged and the cursors cross in the middle. -/
theorem partitionLoopAux_const (arr : List Nat) (pivot : Nat) :
    ∀ (fuel i j : Nat), i ≤ j → j < arr.length → j ≤ 2147483646 →
      (∀ k, i ≤ k → k ≤ j → cell arr k = pivot) → j - i + 1 ≤ fuel →
      partitionLoopAux fuel arr pivot (i : Int) (j : Int) =
        .ok (arr, ((i + (j - i) / 2 + 1 : Nat) : Int), (j : Int) - (((j - i) / 2 : Nat) : Int) - 1) := by
  intro fuel
  induction fuel with
  | zero => intro i j _ _ _ _ h; omega
  | succ fuel ih =>
    intro i j hij hj hmax hconst hfuel
    have hij' : (i : Int) ≤ (j : Int) := by exact_mod_cast hij
    obtain ⟨i₁, hu, _, hu₂, hu₃, _, _⟩ := scanUpAux_run arr pivot i i (arr.length + 1) i i
      (le_refl _) (by omega) (le_of_eq (hconst i (le_refl _) hij)) (by omega) (by omega)
      (le_refl _) (le_refl _)
    obtain ⟨j₁, hd, _, hd₂, hd₃, _, _⟩ := scanDownAux_run arr pivot j j (arr.length + 1) j j
      (le_refl _) hj (le_of_eq (hconst j hij (le_refl _)).symm) (by omega) (by omega)
      (le_refl _) (le_refl _)
    have hi₁ : i₁ = i := by omega
    have hj₁ : j₁ = j := by omega
    subst hi₁ hj₁
    have hsw : swap arr (i₁ : Int) (j₁ : Int) = .ok arr := by
      rw [swap_of_lt (by omega) hj, set_set_of_cell_eq]
      rw [hconst i₁ (le_refl _) hij, hconst j₁ hij (le_refl _)]
    have hov₁ : intResult ((i₁ : Int) + 1) = .ok ((i₁ : Int) + 1) :=
      intResult_of_bounds (by omega) (by omega)
    have hov₂ : intResult ((j₁ : Int) - 1) = .ok ((j₁ : Int) - 1) :=
      intResult_of_bounds (by omega) (by omega)
    simp only [partitionLoopAux, hij', if_true, scanUp, hu, scanDown, hd, ok_bind, hsw, hov₁,
      hov₂]
    by_cases hnext : i₁ + 2 ≤ j₁
    · have e₁ : ((i₁ : Int) + 1) = ((i₁ + 1 : Nat) : Int) := by omega
      have e₂ : ((j₁ : Int) - 1) = ((j₁ - 1 : Nat) : Int) := by omega
      rw [e₁, e₂, ih (i₁ + 1) (j₁ - 1) (by omega) (by omega) (by omega)
        (fun k h₁ h₂ => hconst k (by omega) (by omega)) (by omega)]
      have e₃ : i₁ + 1 + (j₁ - 1 - (i₁ + 1)) / 2 + 1 = i₁ + (j₁ - i₁) / 2 + 1 := by omega
      have e₄ : ((j₁ - 1 : Nat) : Int) - (((j₁ - 1 - (i₁ + 1)) / 2 : Nat) : Int) - 1 =
          (j₁ : Int) - (((j₁ - i₁) / 2 : Nat) : Int) - 1 := by omega
      rw [e₃, e₄]
    · rw [partitionLoopAux_exit fuel arr pivot (by omega)]
      have e₃ : ((i₁ + (j₁ - i₁) / 2 + 1 : Nat) : Int) = (i₁ : Int) + 1 := by omega
      have e₄ : (j₁ : Int) - (((j₁ - i₁) / 2 : Nat) : Int) - 1 = (j₁ : Int) - 1 := by omega
      rw [e₃, e₄]

theorem intResult_of_gt {v : Int} (h : 2147483647 < v) : intResult v = .error .intOverflow := by
  have : ¬ (INT_MIN ≤ v ∧ v ≤ INT_MAX) := by
    simp only [INT_MAX]; omega
  simp [intResult, this]

/-- One call of `quicksort_desc` on the range `[l, n - 1]` of an array of `n` cells that
holds ones followed by a single zero: the partition leaves the array as it is and
crosses its cursors in the middle, the call on the lower half returns the array as it
is, and what remains is the call on the upper half. -/
theorem quicksort_descAux_level (b : List Nat) (n l f i' : Nat) (hlen : b.length = n)
    (h1 : ∀ k, k + 1 < n → cell b k = 1) (h0 : cell b (n - 1) = 0) (hl : l + 4 ≤ n)
    (hsum : l + (n - 1) ≤ 2147483647) (hn : n ≤ 1073741826) (hf : (n - l) / 2 ≤ f)
    (hi : i' = l + 2 + (n - 4 - l) / 2) :
    quicksort_descAux (f + 1) b (l : Int) ((n - 1 : Nat) : Int) =
      quicksort_descAux f b (i' : Int) ((n - 1 : Nat) : Int) := by
  have hnot : ¬ (l : Int) ≥ ((n - 1 : Nat) : Int) := by omega
  have hov : intResult ((l : Int) + ((n - 1 : Nat) : Int)) =
      .ok ((l : Int) + ((n - 1 : Nat) : Int)) := intResult_of_bounds (by omega) (by omega)
  have hmlt : (l + (n - 1)) / 2 < b.length := by omega
  have hpivot : cell b ((l + (n - 1)) / 2) = 1 := h1 _ (by omega)
  -- the first pass of the partition loop
  obtain ⟨i₁, hu, _, hu₂, hu₃, _, _⟩ := scanUpAux_run b 1 l l (b.length + 1) l l
    (le_refl _) (by omega) (le_of_eq (h1 l (by omega))) (by omega) (by omega)
    (le_refl _) (le_refl _)
  have hi₁ : i₁ = l := by omega
  subst hi₁
  obtain ⟨j₁, hd, _, hd₂, hd₃, hd₄, _⟩ := scanDownAux_run b 1 (n - 2 : Nat) (n - 1 : Nat)
    (b.length + 1) (n - 1) (n - 2) (by omega) (by omega) (le_of_eq (h1 (n - 2) (by omega)).symm)
    (by omega) (by omega) (le_refl _) (le_refl _)
  have hj₁ : j₁ = n - 2 := by
    by_contra hne
    have : j₁ = n - 1 := by omega
    rw [this, h0] at hd₄
    omega
  subst hj₁
  have hsw : swap b (i₁ : Int) ((n - 2 : Nat) : Int) = .ok b := by
    rw [swap_of_lt (by omega) (by omega), set_set_of_cell_eq]
    rw [h1 i₁ (by omega), h1 (n - 2) (by omega)]
  have hov₁ : intResult ((i₁ : Int) + 1) = .ok ((i₁ : Int) + 1) :=
    intResult_of_bounds (by omega) (by omega)
  have hov₂ : intResult (((n - 2 : Nat) : Int) - 1) = .ok (((n - 2 : Nat) : Int) - 1) :=
    intResult_of_bounds (by omega) (by omega)
  have hfuel : (((n - 1 : Nat) : Int) - (i₁ : Int) + 1).toNat = (n - i₁ - 1) + 1 := by omega
  have hle : (i₁ : Int) ≤ ((n - 1 : Nat) : Int) := by omega
  have hle₂ : (i₁ : Int) ≤ ((n - 2 : Nat) : Int) := by omega
  have e₁ : ((i₁ : Int) + 1) = ((i₁ + 1 : Nat) : Int) := by omega
  have e₂ : (((n - 2 : Nat) : Int) - 1) = ((n - 3 : Nat) : Int) := by omega
  have hpart : partitionLoop b 1 (i₁ : Int) ((n - 1 : Nat) : Int) =
      .ok (b, ((i₁ + 1 + (n - 3 - (i₁ + 1)) / 2 + 1 : Nat) : Int),
        ((n - 3 : Nat) : Int) - (((n - 3 - (i₁ + 1)) / 2 : Nat) : Int) - 1) := by
    rw [partitionLoop, hfuel]
    simp only [partitionLoopAux, hle, if_true, scanUp, hu, scanDown, hd, ok_bind, hle₂, hsw,
      hov₁, hov₂]
    rw [e₁, e₂]
    exact partitionLoopAux_const b 1 (n - i₁ - 1) (i₁ + 1) (n - 3) (by omega) (by omega)
      (by omega) (fun k _ hk => h1 k (by omega)) (by omega)
  -- the call on the lower half
  have hlow : ∀ j' : Int, j' < ((n - 2 : Nat) : Int) → j' - (i₁ : Int) ≤ (f : Int) →
      quicksort_descAux f b (i₁ : Int) j' = .ok b := by
    intro j' hj' hfj
    obtain ⟨arr', hrun, _, hF, _⟩ := quicksort_descAux_run f b i₁ j' (by omega) (by omega)
      (by omega) hfj
    have : arr' = b := hF.eq_of_const (fun k _ hk₂ _ => h1 k (by omega))
    rw [hrun, this]
  have hi'lt : (i' : Int) < ((n - 1 : Nat) : Int) := by omega
  have hi'eq : ((i₁ + 1 + (n - 3 - (i₁ + 1)) / 2 + 1 : Nat) : Int) = (i' : Int) := by omega
  simp only [quicksort_descAux, hnot, if_false, hov, ok_bind, midpoint_tdiv, readAt_natCast,
    readNat_of_lt hmlt, hpivot, hpart, hi'eq]
  by_cases hc : (i₁ : Int) < ((n - 3 : Nat) : Int) - (((n - 3 - (i₁ + 1)) / 2 : Nat) : Int) - 1
  · rw [if_pos hc, hlow _ (by omega) (by omega)]
    simp only [ok_bind, hi'lt, if_true]
  · rw [if_neg hc]
    simp only [pure_eq_ok, ok_bind, hi'lt, if_true]

/-- On the array of 1073741826 cells that holds ones followed by a single zero, the
calls of `quicksort_desc` on the upper ranges `[n - 1 - 2^k, n - 1]` end in the overflow
of the midpoint of `[n - 3, n - 1]`. -/
theorem quicksort_descAux_chain (b : List Nat) (n : Nat) (hlen : b.length = n)
    (h1 : ∀ k, k + 1 < n → cell b k = 1) (h0 : cell b (n - 1) = 0) (hn : n = 1073741826) :
    ∀ k, 1 ≤ k → k ≤ 29 → ∀ f, 2 ^ k ≤ f →
      quicksort_descAux f b ((n - 1 - 2 ^ k : Nat) : Int) ((n - 1 : Nat) : Int) =
        .error .intOverflow := by
  intro k hk
  induction k, hk using Nat.le_induction with
  | base =>
    intro _ f hf
    obtain ⟨f', rfl⟩ : ∃ f', f = f' + 1 := ⟨f - 1, by simp only [pow_one] at hf; omega⟩
    have hnot : ¬ ((n - 1 - 2 ^ 1 : Nat) : Int) ≥ ((n - 1 : Nat) : Int) := by
      simp only [pow_one]; omega
    have hov : intResult (((n - 1 - 2 ^ 1 : Nat) : Int) + ((n - 1 : Nat) : Int)) =
        .error .intOverflow := intResult_of_gt (by simp only [pow_one]; omega)
    simp only [quicksort_descAux, hnot, if_false, hov, error_bind]
  | succ k hk ih =>
    intro hk29 f hf
    have hR₁ : 2 ≤ 2 ^ k := by
      calc 2 = 2 ^ 1 := by norm_num
        _ ≤ 2 ^ k := Nat.pow_le_pow_right (by decide) hk
    have hR₂ : 2 ^ k ≤ 268435456 := by
      calc 2 ^ k ≤ 2 ^ 28 := Nat.pow_le_pow_right (by decide) (by omega)
        _ = 268435456 := by norm_num
    have ih' := ih (by omega)
    rw [pow_succ] at hf ⊢
    revert ih' hf
    generalize 2 ^ k = R at hR₁ hR₂ ⊢
    intro hf ih'
    obtain ⟨f', rfl⟩ : ∃ f', f = f' + 1 := ⟨f - 1, by omega⟩
    rw [quicksort_descAux_level b n (n - 1 - R * 2) f' (n - 1 - R) hlen h1 h0 (by omega)
      (by omega) (by omega) (by omega) (by omega)]
    exact ih' f' (by omega)

/-- On an array of 1073741826 cells that holds ones followed by a single zero, which is
in descending order, `sort_array` overflows. -/
theorem sort_array_of_sorted_overflows (b : List Nat) (n : Nat) (hlen : b.length = n)
    (h1 : ∀ k, k + 1 < n → cell b k = 1) (h0 : cell b (n - 1) = 0) (hn : n = 1073741826) :
    sort_array b n = .error .intOverflow := by
  have hnot : ¬ n < 2 := by omega
  have hto : toInt n = (n : Int) := toInt_of_le (by omega)
  have hov : intResult ((n : Int) - 1) = .ok ((n : Int) - 1) :=
    intResult_of_bounds (by omega) (by omega)
  have hfuel : ((n : Int) - 1 - 0).toNat = (n - 2) + 1 := by omega
  have e₁ : ((n : Int) - 1) = ((n - 1 : Nat) : Int) := by omega
  simp only [sort_array, hnot, if_false, hto, hov, ok_bind, quicksort_desc, hfuel]
  rw [e₁]
  have hlevel := quicksort_descAux_level b n 0 (n - 2) (n - 1 - 2 ^ 29) hlen h1 h0 (by omega)
    (by omega) (by omega) (by omega) (by norm_num; omega)
  have hchain := quicksort_descAux_chain b n hlen h1 h0 hn 29 (by decide) (by decide) (n - 2)
    (by norm_num; omega)
  rw [← hchain, ← hlevel]
  rfl

theorem ones_zero_shape (m : Nat) :
    (List.replicate m 1 ++ [0]).length = m + 1 ∧
    (∀ k, k + 1 < m + 1 → cell (List.replicate m 1 ++ [0]) k = 1) ∧
    cell (List.replicate m 1 ++ [0]) (m + 1 - 1) = 0 := by
  refine ⟨by simp, ?_, ?_⟩
  · intro k hk
    rw [cell_append_left (by rw [List.length_replicate]; omega)]
    exact cell_replicate (by omega)
  · rw [cell_append_right (by rw [List.length_replicate]; omega), List.length_replicate]
    simp [cell]

theorem sort_array_of_ones_zero :
    sort_array (List.replicate 1073741825 1 ++ [0]) 1073741826 = .error .intOverflow :=
  sort_array_of_sorted_overflows _ 1073741826 (ones_zero_shape 1073741825).1
    (ones_zero_shape 1073741825).2.1 (ones_zero_shape 1073741825).2.2 rfl

theorem eq_ones_zero_of_perm (c : List Nat) (m : Nat)
    (hp : c.Perm (List.replicate m 1 ++ [0])) (hlast : cell c m = 0) :
    c = List.replicate m 1 ++ [0] := by
  have hlen : c.length = m + 1 := by simpa using hp.length_eq
  have hm : m < c.length := by omega
  have hdrop : c.drop m = [0] := by
    rw [List.drop_eq_getElem_cons hm, ← cell_eq_getElem hm, hlast,
      List.drop_eq_nil_of_le (by omega)]
  have hsplit : c = c.take m ++ [0] := by
    conv_lhs => rw [← List.take_append_drop m c, hdrop]
  rw [hsplit] at hp
  have htake : c.take m = List.replicate m 1 :=
    List.perm_replicate.1 ((List.perm_append_right_iff _).1 hp)
  rw [hsplit, htake]

/-- An array of ones with one zero in the middle, of at most `2^30 + 2` cells, is sorted
without fault: the zero ends in the last cell. -/
theorem sort_array_of_zero_in_middle (m : Nat) (hm : 2 * m ≤ 1073741824) :
    sort_array (List.replicate m 1 ++ 0 :: List.replicate (m + 1) 1) (2 * m + 2) =
      .ok (List.replicate (2 * m + 1) 1 ++ [0]) := by
  generalize ha : List.replicate m 1 ++ 0 :: List.replicate (m + 1) 1 = a
  have halen : a.length = 2 * m + 2 := by
    rw [← ha, List.length_append, List.length_cons, List.length_replicate,
      List.length_replicate]
    omega
  have hamid : cell a m = 0 := by
    rw [← ha, cell_append_right (by rw [List.length_replicate]), List.length_replicate]
    simp [cell]
  have hperm : a.Perm (List.replicate (2 * m + 1) 1 ++ [0]) := by
    rw [← ha]
    refine List.perm_middle.trans ?_
    rw [List.append_replicate_replicate, show m + (m + 1) = 2 * m + 1 by omega]
    exact (List.perm_append_singleton 0 _).symm
  obtain ⟨hb₁, hb₂, hb₃⟩ := ones_zero_shape (2 * m + 1)
  generalize hb : List.replicate (2 * m + 1) 1 ++ [0] = b at hperm hb₁ hb₂ hb₃ ⊢
  -- the partition of the whole array
  obtain ⟨arr', i', j', hrun, _, hF, hc₁, hp₁, hp₂, hc₄, hc₅, hge, hle⟩ :=
    partitionLoop_run a 0 (2 * m + 1) (by omega) (by omega) (by omega)
  have hpiv : cell a ((0 + (2 * m + 1)) / 2) = 0 := by
    rw [show (0 + (2 * m + 1)) / 2 = m by omega]; exact hamid
  rw [hpiv] at hrun hle
  have hlast : cell arr' (2 * m + 1) = 0 :=
    Nat.le_zero.1 (hle (2 * m + 1) (by omega) (by omega))
  have harr' : arr' = b := by
    rw [← hb]
    exact eq_ones_zero_of_perm arr' (2 * m + 1) (by rw [hb]; exact hF.2.1.trans hperm) hlast
  subst harr'
  have hj' : j' = ((2 * m : Nat) : Int) := by
    by_contra hne
    have := hle (2 * m) (by omega) (by omega)
    rw [hb₂ (2 * m) (by omega)] at this
    omega
  -- the call on the part before the zero
  obtain ⟨arr'', hrun₂, _, hF₂, _⟩ := quicksort_descAux_run (2 * m) arr' ((0 : Nat) : Int) j'
    (by omega) (by omega) (by omega) (by omega)
  have harr'' : arr'' = arr' := by
    have h₁ : cell arr'' (2 * m + 1) = 0 := by
      rw [hF₂.2.2 (2 * m + 1) (Or.inr (by omega))]; exact hlast
    have h₂ := eq_ones_zero_of_perm arr'' (2 * m + 1) (by rw [hb]; exact hF₂.2.1) h₁
    rw [h₂, hb]
  rw [harr''] at hrun₂
  -- assembling the run
  have hnot : ¬ 2 * m + 2 < 2 := by omega
  have hto : toInt (2 * m + 2) = ((2 * m + 2 : Nat) : Int) := toInt_of_le (by omega)
  have hov : intResult (((2 * m + 2 : Nat) : Int) - 1) = .ok (((2 * m + 2 : Nat) : Int) - 1) :=
    intResult_of_bounds (by omega) (by omega)
  have hfuel : (((2 * m + 2 : Nat) : Int) - 1 - 0).toNat = 2 * m + 1 := by omega
  have e₁ : (((2 * m + 2 : Nat) : Int) - 1) = ((2 * m + 1 : Nat) : Int) := by omega
  have e₀ : (0 : Int) = ((0 : Nat) : Int) := rfl
  have hnot' : ¬ ((0 : Nat) : Int) ≥ ((2 * m + 1 : Nat) : Int) := by omega
  have hsum : intResult (((0 : Nat) : Int) + ((2 * m + 1 : Nat) : Int)) =
      .ok (((0 : Nat) : Int) + ((2 * m + 1 : Nat) : Int)) :=
    intResult_of_bounds (by omega) (by omega)
  have hmlt : (0 + (2 * m + 1)) / 2 < a.length := by omega
  have hi' : ¬ i' < ((2 * m + 1 : Nat) : Int) := by omega
  have hq : quicksort_descAux (2 * m + 1) a ((0 : Nat) : Int) ((2 * m + 1 : Nat) : Int) =
      .ok arr' := by
    simp only [quicksort_descAux, hnot', if_false, hsum, ok_bind, midpoint_tdiv, readAt_natCast,
      readNat_of_lt hmlt, hpiv, hrun, hi', pure_eq_ok]
    by_cases hc : ((0 : Nat) : Int) < j'
    · rw [if_pos hc, hrun₂]; rfl
    · rw [if_neg hc]
  simp only [sort_array, hnot, if_false, hto, hov, ok_bind, quicksort_desc, hfuel]
  rw [e₁]
  exact hq

theorem sort_array_of_zero_in_middle_big :
    sort_array (List.replicate 536870912 1 ++ 0 :: List.replicate 536870913 1) 1073741826 =
      .ok (List.replicate 1073741825 1 ++ [0]) :=
  sort_array_of_zero_in_middle 536870912 (by decide)

theorem nonIncreasing_ones_zero (m : Nat) : NonIncreasing (List.replicate m 1 ++ [0]) := by
  obtain ⟨h₁, h₂, h₃⟩ := ones_zero_shape m
  intro k hk
  rw [h₁] at hk
  have hk₁ : cell (List.replicate m 1 ++ [0]) k = 1 := h₂ k hk
  have hk₂ : cell (List.replicate m 1 ++ [0]) (k + 1) ≤ 1 := by
    by_cases hlast : k + 1 = m
    · rw [hlast]
      rw [show m + 1 - 1 = m by omega] at h₃
      rw [h₃]; omega
    · exact le_of_eq (h₂ (k + 1) (by omega))
  show cell (List.replicate m 1 ++ [0]) (k + 1) ≤ cell (List.replicate m 1 ++ [0]) k
  rw [hk₁]; exact hk₂

/-! ## Idempotence and permutation invariance within `MAX_LEN` -/

/-- On an array of at most `MAX_LEN` cells a second `sort_array` returns the array the
first one produced. -/
theorem sort_array_idempotent (a : List Nat) (hlen : a.length ≤ MAX_LEN) :
    ∃ b, sort_array a a.length = .ok b ∧ sort_array b a.length = .ok b := by
  obtain ⟨b, hrun, hl, hp, hs⟩ := sort_array_spec a hlen
  obtain ⟨c, hrun', hl', hp', hs'⟩ := sort_array_spec b (by omega)
  have hb : NonIncreasing b := NonIncreasing.of_sortedSeg (by rw [hl]; exact hs)
  have hc : NonIncreasing c := NonIncreasing.of_sortedSeg (by rw [hl']; exact hs')
  have hcb : c = b := NonIncreasing.eq_of_perm hc hb hp'
  rw [hl, hcb] at hrun'
  exact ⟨b, hrun, hrun'⟩

/-- On arrays of at most `MAX_LEN` cells that are permutations of each other,
`find_median` leaves the same array and returns the same value. -/
theorem find_median_perm (S T : List Nat) (hlen : S.length ≤ MAX_LEN) (hp : S.Perm T) :
    find_median S S.length = find_median T T.length := by
  have hl : T.length = S.length := hp.length_eq.symm
  obtain ⟨b, hrun, hbl, hbp, hbs⟩ := sort_array_spec S hlen
  obtain ⟨c, hrun', hcl, hcp, hcs⟩ := sort_array_spec T (by omega)
  have hb : NonIncreasing b := NonIncreasing.of_sortedSeg (by rw [hbl]; exact hbs)
  have hc : NonIncreasing c := NonIncreasing.of_sortedSeg (by rw [hcl]; exact hcs)
  have hcb : c = b := NonIncreasing.eq_of_perm hc hb (hcp.trans (hp.symm.trans hbp.symm))
  subst hcb
  by_cases hpos : 0 < S.length
  · rw [find_median_of_sort hpos hrun hbl, find_median_of_sort (by omega) hrun' hcl, hl]
  · have hS : S = [] := List.length_eq_zero.1 (by omega)
    have hT : T = [] := List.length_eq_zero.1 (by omega)
    rw [hS, hT]

theorem sum_le_of_bytes (S : List Nat) (hb : Bytes S) : S.sum ≤ 255 * S.length := by
  have h := List.sum_le_card_nsmul S 255 (fun x hx => by
    have := hb x hx
    simp only [UCHAR_RANGE] at this
    omega)
  simpa [Nat.mul_comm] using h

/-! ## Properties of the specification, continued -/

/-- C11, at an input where it fails: let `a` be the array of 1073741826 bytes
(`2^30 + 2`) made of 536870912 ones, a zero and 536870913 ones. A first `sort_array`
returns without fault and leaves `b`, 1073741825 ones followed by the zero, which is in
descending order. A second `sort_array`, applied to `b`, does not leave `b`: it
overflows, the call of `quicksort_desc` on the last three cells computing its midpoint
from the sum `(n - 3) + (n - 1) = 2147483648`, above `INT_MAX`. -/
theorem sort_array_twice_overflows :
    Bytes (List.replicate 536870912 1 ++ 0 :: List.replicate 536870913 1) ∧
    (List.replicate 536870912 1 ++ 0 :: List.replicate 536870913 1).length = 1073741826 ∧
    sort_array (List.replicate 536870912 1 ++ 0 :: List.replicate 536870913 1) 1073741826 =
      .ok (List.replicate 1073741825 1 ++ [0]) ∧
    NonIncreasing (List.replicate 1073741825 1 ++ [0]) ∧
    sort_array (List.replicate 1073741825 1 ++ [0]) 1073741826 = .error .intOverflow ∧
    (sort_array (List.replicate 536870912 1 ++ 0 :: List.replicate 536870913 1) 1073741826 >>=
      fun b => sort_array b 1073741826) = .error .intOverflow := by
  refine ⟨?_, ?_, sort_array_of_zero_in_middle_big, nonIncreasing_ones_zero _,
    sort_array_of_ones_zero, ?_⟩
  · intro x hx
    rcases List.mem_append.1 hx with h | h
    · rw [List.eq_of_mem_replicate h]; decide
    · rcases List.mem_cons.1 h with h | h
      · rw [h]; decide
      · rw [List.eq_of_mem_replicate h]; decide
  · rw [List.length_append, List.length_cons, List.length_replicate, List.length_replicate]
  · rw [sort_array_of_zero_in_middle_big, ok_bind]
    exact sort_array_of_ones_zero

/-- C12: on the input `[34, 201, 190, 154, 8]` of length 5, `find_minimum` returns 8,
`find_maximum` 201, `find_mean` 117 (the sum 587 divided by 5), `sort_array` yields
`[201, 190, 154, 34, 8]` and `find_median` returns 154. -/
theorem statistics_of_five_samples :
    find_minimum [34, 201, 190, 154, 8] 5 = .ok 8 ∧
    find_maximum [34, 201, 190, 154, 8] 5 = .ok 201 ∧
    find_mean [34, 201, 190, 154, 8] 5 = .ok 117 ∧
    (34 + 201 + 190 + 154 + 8) / 5 = 117 ∧
    sort_array [34, 201, 190, 154, 8] 5 = .ok [201, 190, 154, 34, 8] ∧
    find_median [34, 201, 190, 154, 8] 5 = .ok ([201, 190, 154, 34, 8], 154) := by
  decide

/-- C13: on the even-length input `[5, 1]`, `find_mean` returns 3, `sort_array` yields
`[5, 1]` and `find_median` returns `(5 + 1) / 2 = 3`. -/
theorem statistics_of_two_samples :
    find_mean [5, 1] 2 = .ok 3 ∧ sort_array [5, 1] 2 = .ok [5, 1] ∧
    find_median [5, 1] 2 = .ok ([5, 1], 3) ∧ (5 + 1) / 2 = 3 := by
  decide

/-- C15: for every array and bounds `0 ≤ left < right < len` (with `right` an `int`),
with `pivot` the value of the cell at `(left + right) / 2` on entry, the
`while (i <= j)` loop of `quicksort_desc` exits without fault with `j < i`, `left ≤ i`,
`j ≤ right`, every cell of `[left, i - 1]` at least `pivot`, every cell of
`[j + 1, right]` at most `pivot`, the cells strictly between `j` and `i` equal to
`pivot`, and the cells outside `[left, right]` unchanged (the array is a permutation of
the one on entry); and when the midpoint is computed without overflow, `quicksort_desc`
continues with the recursive calls on `[left, j]` and on `[i, right]`. -/
theorem partition_step (arr : List Nat) (left right : Nat) (hlt : left < right)
    (hright : right < arr.length) (hmax : (right : Int) ≤ INT_MAX) :
    ∃ arr' i' j',
      partitionLoop arr (cell arr ((left + right) / 2)) left right = .ok (arr', i', j') ∧
      j' < i' ∧ (left : Int) ≤ i' ∧ j' ≤ (right : Int) ∧
      (∀ k : Nat, (left : Int) ≤ k → (k : Int) < i' →
        cell arr ((left + right) / 2) ≤ cell arr' k) ∧
      (∀ k : Nat, j' < (k : Int) → (k : Int) ≤ right →
        cell arr' k ≤ cell arr ((left + right) / 2)) ∧
      (∀ k : Nat, j' < (k : Int) → (k : Int) < i' →
        cell arr' k = cell arr ((left + right) / 2)) ∧
      (∀ k : Nat, (k < left ∨ right < k) → cell arr' k = cell arr k) ∧
      arr'.length = arr.length ∧ arr'.Perm arr ∧
      (((left + right : Nat) : Int) ≤ INT_MAX →
        ∀ fuel, quicksort_descAux (fuel + 1) arr left right =
          (do
            let a₁ ← if (left : Int) < j' then quicksort_descAux fuel arr' left j'
              else pure arr'
            if i' < (right : Int) then quicksort_descAux fuel a₁ i' right else pure a₁)) := by
  have hmax' : right ≤ 2147483647 := by
    simp only [INT_MAX] at hmax; omega
  obtain ⟨arr', i', j', hrun, _, hF, h₁, h₂, h₃, h₄, h₅, hge, hle⟩ :=
    partitionLoop_run arr left right hlt hright hmax'
  refine ⟨arr', i', j', hrun, h₁, by omega, by omega, hge, hle, ?_, ?_, hF.1, hF.2.1, ?_⟩
  · intro k hk₁ hk₂
    exact le_antisymm (hle k hk₁ (by omega)) (hge k (by omega) hk₂)
  · intro k hk
    exact hF.2.2 k (by omega)
  · intro hsum fuel
    have hsum' : left + right ≤ 2147483647 := by
      simp only [INT_MAX] at hsum; omega
    have hnot : ¬ (left : Int) ≥ (right : Int) := by omega
    have hov : intResult ((left : Int) + (right : Int)) = .ok ((left : Int) + (right : Int)) :=
      intResult_of_bounds (by omega) (by omega)
    have hmlt : (left + right) / 2 < arr.length := by omega
    simp only [quicksort_descAux, hnot, if_false, hov, ok_bind, midpoint_tdiv, readAt_natCast,
      readNat_of_lt hmlt, hrun]

/-- Instance of C15 on the array `[3, 1, 2]` with the bounds 0 and 2. -/
theorem partition_step_witness :
    (0 < 2 ∧ 2 < [3, 1, 2].length ∧ ((2 : Nat) : Int) ≤ INT_MAX) ∧
    ∃ arr' i' j',
      partitionLoop [3, 1, 2] (cell [3, 1, 2] ((0 + 2) / 2)) (0 : Nat) (2 : Nat) =
        .ok (arr', i', j') ∧
      j' < i' ∧ ((0 : Nat) : Int) ≤ i' ∧ j' ≤ ((2 : Nat) : Int) ∧
      (∀ k : Nat, ((0 : Nat) : Int) ≤ k → (k : Int) < i' →
        cell [3, 1, 2] ((0 + 2) / 2) ≤ cell arr' k) ∧
      (∀ k : Nat, j' < (k : Int) → (k : Int) ≤ (2 : Nat) →
        cell arr' k ≤ cell [3, 1, 2] ((0 + 2) / 2)) ∧
      (∀ k : Nat, j' < (k : Int) → (k : Int) < i' →
        cell arr' k = cell [3, 1, 2] ((0 + 2) / 2)) ∧
      (∀ k : Nat, (k < 0 ∨ 2 < k) → cell arr' k = cell [3, 1, 2] k) ∧
      arr'.length = [3, 1, 2].length ∧ arr'.Perm [3, 1, 2] ∧
      (((0 + 2 : Nat) : Int) ≤ INT_MAX →
        ∀ fuel, quicksort_descAux (fuel + 1) [3, 1, 2] (0 : Nat) (2 : Nat) =
          (do
            let a₁ ← if ((0 : Nat) : Int) < j' then quicksort_descAux fuel arr' (0 : Nat) j'
              else pure arr'
            if i' < ((2 : Nat) : Int) then quicksort_descAux fuel a₁ i' (2 : Nat)
              else pure a₁)) :=
  ⟨⟨by decide, by decide, by decide⟩, partition_step [3, 1, 2] 0 2 (by decide) (by decide)
    (by decide)⟩

/-- C16: for every array `a` of length `n` with `2 ≤ n ≤ 2^30`, `sort_array(a, n)` run
under the monitor returns the array that `sort_array(a, n)` returns: every call of
`quicksort_desc` that has work to do is on bounds `0 ≤ left` and `right ≤ n - 1`, and
every access it makes (the pivot read, the two scans, the swap) uses an index of its
own range `[left, right]`; no access is out of bounds. -/
theorem sort_array_accesses_in_bounds (a : List Nat) (h₂ : 2 ≤ a.length)
    (hlen : a.length ≤ MAX_LEN) :
    ∃ out, sort_arrayChecked a a.length = .ok out ∧ sort_array a a.length = .ok out := by
  have hnot : ¬ a.length < 2 := by omega
  have hto : toInt a.length = (a.length : Int) :=
    toInt_of_le (by simp only [MAX_LEN] at hlen; omega)
  have hov : intResult ((a.length : Int) - 1) = .ok ((a.length : Int) - 1) :=
    intResult_of_bounds (by omega) (by simp only [MAX_LEN] at hlen; omega)
  obtain ⟨out, hrun, hrun', _⟩ := quicksort_descAux_run
    (((a.length : Int) - 1) - 0).toNat a 0 ((a.length : Int) - 1) (le_refl _)
    (by omega) (by simp only [MAX_LEN] at hlen; omega) (by omega)
  refine ⟨out, ?_, ?_⟩
  · simp only [sort_arrayChecked, hnot, if_false, hto, hov, ok_bind, quicksort_descChecked]
    exact hrun'
  · simp only [sort_array, hnot, if_false, hto, hov, ok_bind, quicksort_desc]
    exact hrun

/-- Instance of C16 on the array `[34, 201, 190, 154, 8]`. -/
theorem sort_array_accesses_in_bounds_witness :
    (2 ≤ [34, 201, 190, 154, 8].length ∧ [34, 201, 190, 154, 8].length ≤ MAX_LEN) ∧
    ∃ out, sort_arrayChecked [34, 201, 190, 154, 8] 5 = .ok out ∧
      sort_array [34, 201, 190, 154, 8] 5 = .ok out :=
  ⟨⟨by decide, by decide⟩,
    sort_array_accesses_in_bounds [34, 201, 190, 154, 8] (by decide) (by decide)⟩

/-- C17: for every array and bounds `0 ≤ left < right < len` (with `right` an `int`),
the first pass of the partition loop of `quicksort_desc` stops its two scans at cells
`i ≤ j` on either side of the midpoint, so it swaps; the loop exits without fault with
`i ≥ left + 1` and `j ≤ right - 1`, so both recursive calls are on ranges strictly
shorter than `[left, right]`; and on every input whatsoever neither `quicksort_desc`
nor `sort_array` exhausts its budget of `right - left` nested calls: every run ends,
with a result or with one of the two faults of the machine model. -/
theorem quicksort_desc_terminates (arr : List Nat) (left right : Nat) (hlt : left < right)
    (hright : right < arr.length) (hmax : (right : Int) ≤ INT_MAX) :
    (∃ i₁ j₁ : Nat, scanUp arr (cell arr ((left + right) / 2)) left = .ok (i₁ : Int) ∧
      scanDown arr (cell arr ((left + right) / 2)) right = .ok (j₁ : Int) ∧
      i₁ ≤ (left + right) / 2 ∧ (left + right) / 2 ≤ j₁) ∧
    (∃ arr' i' j',
      partitionLoop arr (cell arr ((left + right) / 2)) left right = .ok (arr', i', j') ∧
      (left : Int) + 1 ≤ i' ∧ j' ≤ (right : Int) - 1 ∧
      j' - (left : Int) < (right : Int) - (left : Int) ∧
      (right : Int) - i' < (right : Int) - (left : Int)) ∧
    (∀ (a : List Nat) (l r : Int), quicksort_desc a l r ≠ .error .outOfFuel) ∧
    (∀ (a : List Nat) (len : Nat), sort_array a len ≠ .error .outOfFuel) := by
  have hmax' : right ≤ 2147483647 := by simp only [INT_MAX] at hmax; omega
  refine ⟨?_, ?_, ?_, sort_array_ne_outOfFuel⟩
  · obtain ⟨i₁, hu, _, _, hu₃, _, _⟩ := scanUpAux_run arr (cell arr ((left + right) / 2)) left
      right (arr.length + 1) left ((left + right) / 2) (by omega) (by omega) (le_refl _)
      (by omega) (by omega) (le_refl _) (by omega)
    obtain ⟨j₁, hd, _, hd₂, _, _, _⟩ := scanDownAux_run arr (cell arr ((left + right) / 2)) left
      right (arr.length + 1) right ((left + right) / 2) (by omega) (by omega) (le_refl _)
      (by omega) (by omega) (by omega) (le_refl _)
    exact ⟨i₁, j₁, hu, hd, hu₃, hd₂⟩
  · obtain ⟨arr', i', j', hrun, _, _, _, h₁, h₂, _, _, _, _⟩ :=
      partitionLoop_run arr left right hlt hright hmax'
    exact ⟨arr', i', j', hrun, by omega, by omega, by omega, by omega⟩
  · intro a l r
    exact quicksort_descAux_ne_outOfFuel _ a l r (by omega)

/-- Instance of C17 on the array `[3, 1, 2]` with the bounds 0 and 2. -/
theorem quicksort_desc_terminates_witness :
    (0 < 2 ∧ 2 < [3, 1, 2].length ∧ ((2 : Nat) : Int) ≤ INT_MAX) ∧
    ((∃ i₁ j₁ : Nat, scanUp [3, 1, 2] (cell [3, 1, 2] ((0 + 2) / 2)) (0 : Nat) = .ok (i₁ : Int) ∧
      scanDown [3, 1, 2] (cell [3, 1, 2] ((0 + 2) / 2)) (2 : Nat) = .ok (j₁ : Int) ∧
      i₁ ≤ (0 + 2) / 2 ∧ (0 + 2) / 2 ≤ j₁) ∧
    (∃ arr' i' j',
      partitionLoop [3, 1, 2] (cell [3, 1, 2] ((0 + 2) / 2)) (0 : Nat) (2 : Nat) =
        .ok (arr', i', j') ∧
      ((0 : Nat) : Int) + 1 ≤ i' ∧ j' ≤ ((2 : Nat) : Int) - 1 ∧
      j' - ((0 : Nat) : Int) < ((2 : Nat) : Int) - ((0 : Nat) : Int) ∧
      ((2 : Nat) : Int) - i' < ((2 : Nat) : Int) - ((0 : Nat) : Int)) ∧
    (∀ (a : List Nat) (l r : Int), quicksort_desc a l r ≠ .error .outOfFuel) ∧
    (∀ (a : List Nat) (len : Nat), sort_array a len ≠ .error .outOfFuel)) :=
  ⟨⟨by decide, by decide, by decide⟩,
    quicksort_desc_terminates [3, 1, 2] 0 2 (by decide) (by decide) (by decide)⟩

/-- C18: for every non-empty byte array `S` of length `n ≤ 16843009`, the sum of the
elements is below `2^32` (the accumulator does not wrap), the quotient `sum / n` is at
most 255 (the narrowing to 8 bits changes nothing), `find_mean` returns exactly
`sum / n`, and `find_minimum ≤ find_mean ≤ find_maximum`. -/
theorem find_mean_exact (S : List Nat) (hne : S ≠ []) (hb : Bytes S)
    (hlen : S.length ≤ 16843009) :
    S.sum < UINT_RANGE ∧ S.sum / S.length ≤ 255 ∧
    find_mean S S.length = .ok (S.sum / S.length) ∧
    ∃ mn mx, find_minimum S S.length = .ok mn ∧ find_maximum S S.length = .ok mx ∧
      mn ≤ S.sum / S.length ∧ S.sum / S.length ≤ mx := by
  have hpos : 0 < S.length := List.length_pos.2 hne
  have hsum := sum_le_of_bytes S hb
  have hlt : S.sum < UINT_RANGE := by simp only [UINT_RANGE]; omega
  have hq : S.sum / S.length ≤ 255 :=
    Nat.div_le_of_le_mul (by rw [Nat.mul_comm]; exact hsum)
  obtain ⟨mn, h₁, h₂, _⟩ := find_minimum_spec S hne
  obtain ⟨mx, h₃, h₄, _⟩ := find_maximum_spec S hne
  have hlo : S.length * mn ≤ S.sum := by
    have := List.card_nsmul_le_sum S mn (fun x hx => by
      obtain ⟨k, hk, rfl⟩ := exists_cell_of_mem hx
      exact h₂ k hk)
    simpa using this
  have hhi : S.sum ≤ S.length * mx := by
    have := List.sum_le_card_nsmul S mx (fun x hx => by
      obtain ⟨k, hk, rfl⟩ := exists_cell_of_mem hx
      exact h₄ k hk)
    simpa using this
  refine ⟨hlt, hq, ?_, mn, mx, h₁, h₃, ?_, Nat.div_le_of_le_mul hhi⟩
  · rw [find_mean_spec S hne, Nat.mod_eq_of_lt hlt,
      Nat.mod_eq_of_lt (by simp only [UCHAR_RANGE]; omega)]
  · exact (Nat.le_div_iff_mul_le hpos).2 (by rw [Nat.mul_comm]; exact hlo)

/-- Instance of C18 on the array `[34, 201, 190, 154, 8]`. -/
theorem find_mean_exact_witness :
    ([34, 201, 190, 154, 8] ≠ [] ∧ Bytes [34, 201, 190, 154, 8] ∧
      [34, 201, 190, 154, 8].length ≤ 16843009) ∧
    ([34, 201, 190, 154, 8].sum < UINT_RANGE ∧ [34, 201, 190, 154, 8].sum / 5 ≤ 255 ∧
    find_mean [34, 201, 190, 154, 8] 5 = .ok ([34, 201, 190, 154, 8].sum / 5) ∧
    ∃ mn mx, find_minimum [34, 201, 190, 154, 8] 5 = .ok mn ∧
      find_maximum [34, 201, 190, 154, 8] 5 = .ok mx ∧
      mn ≤ [34, 201, 190, 154, 8].sum / 5 ∧ [34, 201, 190, 154, 8].sum / 5 ≤ mx) :=
  ⟨⟨by decide, by decide, by decide⟩,
    find_mean_exact [34, 201, 190, 154, 8] (by decide) (by decide) (by decide)⟩

/-- C19, at an input where it fails: the arrays `S` (1073741824 zeros, a five,
1073741824 zeros) and `T` (a five followed by 2147483648 zeros) hold the same
2147483649 bytes in a different order, yet `find_median` returns 5 on `S` and 0 on `T`:
at this length `sort_array` returns at once and the value of the central cell of the
unsorted array is returned. -/
theorem find_median_depends_on_order_of_long_array :
    Bytes (List.replicate 1073741824 0 ++ 5 :: List.replicate 1073741824 0) ∧
    (List.replicate 1073741824 0 ++ 5 :: List.replicate 1073741824 0).Perm
      (5 :: List.replicate 2147483648 0) ∧
    (List.replicate 1073741824 0 ++ 5 :: List.replicate 1073741824 0).length = 2147483649 ∧
    (5 :: List.replicate 2147483648 0).length = 2147483649 ∧
    find_median (List.replicate 1073741824 0 ++ 5 :: List.replicate 1073741824 0) 2147483649 =
      .ok (List.replicate 1073741824 0 ++ 5 :: List.replicate 1073741824 0, 5) ∧
    find_median (5 :: List.replicate 2147483648 0) 2147483649 =
      .ok (5 :: List.replicate 2147483648 0, 0) := by
  have hlenS : (List.replicate 1073741824 0 ++ 5 :: List.replicate 1073741824 0).length =
      2147483649 := by
    rw [List.length_append, List.length_cons, List.length_replicate]
  have hlenT : (5 :: List.replicate 2147483648 0).length = 2147483649 := by
    rw [List.length_cons, List.length_replicate]
  have hodd : (2147483649 &&& 1 ≠ 0) := by decide
  have hhalf : 2147483649 / 2 = 1073741823 + 1 := by decide
  refine ⟨?_, ?_, hlenS, hlenT, ?_, ?_⟩
  · intro x hx
    rcases List.mem_append.1 hx with h | h
    · rw [List.eq_of_mem_replicate h]; decide
    · rcases List.mem_cons.1 h with h | h
      · rw [h]; decide
      · rw [List.eq_of_mem_replicate h]; decide
  · have h₁ : (5 :: List.replicate 2147483648 0) =
        5 :: (List.replicate 1073741824 0 ++ List.replicate 1073741824 0) := by
      rw [List.append_replicate_replicate]
    rw [h₁]
    exact List.perm_middle
  · rw [find_median_of_sort (by decide) (sort_array_of_long _ _ (by decide) (by decide)) hlenS]
    have hv : centralValue (List.replicate 1073741824 0 ++ 5 :: List.replicate 1073741824 0)
        2147483649 = 5 := by
      rw [centralValue, if_pos hodd, hhalf,
        cell_append_right (by rw [List.length_replicate]), List.length_replicate]
      rfl
    rw [hv]
  · rw [find_median_of_sort (by decide) (sort_array_of_long _ _ (by decide) (by decide)) hlenT]
    have hv : centralValue (5 :: List.replicate 2147483648 0) 2147483649 = 0 := by
      rw [centralValue, if_pos hodd, hhalf]
      show (5 :: List.replicate 2147483648 0).getD (1073741823 + 1) 0 = 0
      rw [List.getD_cons_succ]; exact cell_replicate (by decide)
    rw [hv]

/-! ## The run of `main` -/

set_option maxRecDepth 100000

theorem sort_array_test : sort_array test 40 = .ok test_sorted := by decide

theorem print_array_test : print_array test 40 = .ok
    ("34 201 190 154 8 194 2 6 114 88 45 76 123 87 25 23 200 122 150 90 " ++
     "92 87 177 244 201 6 12 60 8 2 5 67 7 87 250 230 99 3 100 90 \n") := by decide

theorem print_array_test_sorted : print_array test_sorted 40 = .ok
    ("250 244 230 201 201 200 194 190 177 154 150 123 122 114 100 99 92 90 90 88 " ++
     "87 87 87 76 67 60 45 34 25 23 12 8 8 7 6 6 5 3 2 2 \n") := by decide

theorem print_statistics_test (buf : List Nat) (hbuf : buf.length = 40) :
    print_statistics test 40 (some buf) =
      .ok (test, "Minimum: 2\nMaximum: 250\nMean:    93\nMedian:  87\n") := by
  have hcopy : copy_loop test 40 0 buf = .ok test := copy_loop_eq test buf hbuf
  have h₁ : find_minimum test 40 = .ok 2 := by decide
  have h₂ : find_maximum test 40 = .ok 250 := by decide
  have h₃ : find_mean test 40 = .ok 93 := by decide
  have h₄ : find_median test 40 = .ok (test_sorted, 87) := by decide
  have hpos : (40 : Nat) > 0 := by decide
  simp only [print_statistics, h₁, h₂, h₃, h₄, hcopy, hpos, if_true, ok_bind, pure_eq_ok]
  decide

theorem print_statistics_test_none :
    print_statistics test 40 none =
      .ok (test, "Minimum: 2\nMaximum: 250\nMean:    93\nMedian:  0\n") := by decide

/-- C20, as stated, fails in one case: when `malloc` returns `NULL` in
`print_statistics`, the program reports `Median:  0` (the other three statistics and
the sorted array are the same). -/
theorem main_reports_zero_median_without_buffer :
    main none = .ok (test_sorted,
      "Original array:\n" ++
      "34 201 190 154 8 194 2 6 114 88 45 76 123 87 25 23 200 122 150 90 " ++
      "92 87 177 244 201 6 12 60 8 2 5 67 7 87 250 230 99 3 100 90 \n" ++
      "\nStatistics:\n" ++
      "Minimum: 2\nMaximum: 250\nMean:    93\nMedian:  0\n" ++
      "\nSorted array (descending):\n" ++
      "250 244 230 201 201 200 194 190 177 154 150 123 122 114 100 99 92 90 90 88 " ++
      "87 87 87 76 67 60 45 34 25 23 12 8 8 7 6 6 5 3 2 2 \n", 0) := by
  simp only [main, print_array_test, print_statistics_test_none, sort_array_test,
    print_array_test_sorted, ok_bind, pure_eq_ok]
  rfl

/-- C20, amended: when the allocation of the 40-byte temporary in `print_statistics`
succeeds, `main` returns 0 after writing the original array, the statistics
`Minimum: 2`, `Maximum: 250`, `Mean:    93` (the sum 3759 divided by 40) and
`Median:  87` (the truncated average of the central cells 88 and 87 of the sorted
array), and the array sorted in descending order, which begins 250, 244, 230, 201, 201,
200 and ends 5, 3, 2, 2. -/
theorem main_output (buf : List Nat) (hbuf : buf.length = 40) :
    main (some buf) = .ok (test_sorted, main_text, 0) ∧
    test.sum = 3759 ∧ 3759 / 40 = 93 ∧
    cell test_sorted 19 = 88 ∧ cell test_sorted 20 = 87 ∧ (88 + 87) / 2 = 87 ∧
    test_sorted.Perm test ∧ NonIncreasing test_sorted ∧
    test_sorted.take 6 = [250, 244, 230, 201, 201, 200] ∧
    test_sorted.drop 36 = [5, 3, 2, 2] := by
  refine ⟨?_, by decide, by decide, by decide, by decide, by decide,
    sort_array_perm sort_array_test, ?_, by decide, by decide⟩
  · simp only [main, print_array_test, print_statistics_test buf hbuf, sort_array_test,
      print_array_test_sorted, ok_bind, pure_eq_ok]
    rfl
  · intro k hk
    have hk' : k < 39 := by
      have : test_sorted.length = 40 := by decide
      omega
    interval_cases k <;> decide

/-- Instance of the amended C20 with a fresh buffer of 40 zeros. -/
theorem main_output_witness :
    (List.replicate 40 0).length = 40 ∧
    (main (some (List.replicate 40 0)) = .ok (test_sorted, main_text, 0) ∧
    test.sum = 3759 ∧ 3759 / 40 = 93 ∧
    cell test_sorted 19 = 88 ∧ cell test_sorted 20 = 87 ∧ (88 + 87) / 2 = 87 ∧
    test_sorted.Perm test ∧ NonIncreasing test_sorted ∧
    test_sorted.take 6 = [250, 244, 230, 201, 201, 200] ∧
    test_sorted.drop 36 = [5, 3, 2, 2]) :=
  ⟨by decide, main_output (List.replicate 40 0) (by decide)⟩

end Stats
